import Mathlib

/-!
hakrawler: scope filter, robots parsing, link extraction and dedup registries.

A shallow embedding of `main.go`.  Go strings are embedded as lists of
characters (for ASCII text, the bytes of the string).  Printing and file
writing are recorded as a list of effects, the dedup maps are explicit state,
and the functions of Go's standard library that the program calls (`strings`,
`net/url`, `regexp`) are modelled next to the code that uses them.
-/

namespace Hakrawler

/-- A Go string, as the list of its characters. -/
abbrev GoString := List Char

/-! ## Package `strings` -/

/-- Go `strings.HasPrefix(s, p)`. -/
def stringsHasPrefix (s p : GoString) : Bool := p.isPrefixOf s

/-- Go `strings.HasSuffix(s, p)`. -/
def stringsHasSuffix (s p : GoString) : Bool := p.reverse.isPrefixOf s.reverse

/-- Go `strings.Contains(s, sub)`. -/
def stringsContains : GoString → GoString → Bool
  | [], sub => sub.isEmpty
  | c :: s, sub => sub.isPrefixOf (c :: s) || stringsContains s sub

/-- Go `strings.Replace(s, old, new, 1)`: the first occurrence of `old` is replaced. -/
def stringsReplaceFirst : GoString → GoString → GoString → GoString
  | [], old, new => if old.isEmpty then new else []
  | c :: s, old, new =>
    if old.isPrefixOf (c :: s) then new ++ (c :: s).drop old.length
    else c :: stringsReplaceFirst s old new

/-- Go `strings.Cut(s, sep)` for a one-byte separator: the text before the first
`sep`, the text after it, and whether `sep` was found. -/
def stringsCut (sep : Char) : GoString → GoString × GoString × Bool
  | [] => ([], [], false)
  | c :: s =>
    if c = sep then ([], s, true)
    else
      let r := stringsCut sep s
      (c :: r.1, r.2.1, r.2.2)

/-- Go `strings.Split(s, sep)` for a one-byte separator. -/
def stringsSplit (sep : Char) : GoString → List GoString
  | [] => [[]]
  | c :: s =>
    if c = sep then [] :: stringsSplit sep s
    else
      match stringsSplit sep s with
      | [] => [[c]]
      | l :: ls => (c :: l) :: ls

/-- Go `strings.Count(s, sep)` for a one-byte separator. -/
def stringsCount (sep : Char) (s : GoString) : Nat := s.count sep

/-- Split at the last occurrence of `sep` (Go `strings.LastIndex` followed by the
two slices `s[:i]` and `s[i+1:]`); `none` when `sep` does not occur. -/
def cutLast (sep : Char) (s : GoString) : Option (GoString × GoString) :=
  let r := stringsCut sep s.reverse
  if r.2.2 then some (r.2.1.reverse, r.1.reverse) else none

/-! ## Package `net/url`

`printIfInScope` calls `url.Parse`, `(*URL).ResolveReference`, `(*URL).String` and
reads the field `Host`.  The record `URL` has the fields of Go's `url.URL`; the
three functions are collected in a `UrlLib`, over which the program is
parametrised, and `goUrl` transcribes the algorithm of the standard library.
The library works byte by byte, the transcription character by character: the
two agree on ASCII text, on which the statements below evaluate `goUrl`. -/

/-- Go `url.Userinfo`. -/
structure Userinfo where
  username : GoString
  password : GoString
  passwordSet : Bool
  deriving DecidableEq, Repr

/-- Go `url.URL` (the field `Opaque` is spelled `opaquePart`). -/
structure URL where
  scheme : GoString
  opaquePart : GoString
  user : Option Userinfo
  host : GoString
  path : GoString
  rawPath : GoString
  omitHost : Bool
  forceQuery : Bool
  rawQuery : GoString
  fragment : GoString
  rawFragment : GoString
  deriving DecidableEq, Repr

/-- The functions of `net/url` used by the program: `parse` is `url.Parse`
(`none` for a non-nil error), `resolveReference base ref` is
`base.ResolveReference(ref)`, `render u` is `u.String()`. -/
structure UrlLib where
  parse : GoString → Option URL
  resolveReference : URL → URL → URL
  render : URL → GoString

/-- The zero value of `url.URL`. -/
def URL.zero : URL :=
  { scheme := [], opaquePart := [], user := none, host := [], path := [], rawPath := [],
    omitHost := false, forceQuery := false, rawQuery := [], fragment := [], rawFragment := [] }

/-- The escaping modes of `net/url`. -/
inductive Encoding
  | path | pathSegment | host | zone | userPassword | queryComponent | fragment
  deriving DecidableEq, Repr

/-- Bytes `a`–`z`, `A`–`Z`. -/
def isAlpha (c : Char) : Bool :=
  (97 ≤ c.toNat && c.toNat ≤ 122) || (65 ≤ c.toNat && c.toNat ≤ 90)

/-- Bytes `0`–`9`. -/
def isDigit (c : Char) : Bool := 48 ≤ c.toNat && c.toNat ≤ 57

/-- Go `ishex`. -/
def ishex (c : Char) : Bool :=
  isDigit c || (97 ≤ c.toNat && c.toNat ≤ 102) || (65 ≤ c.toNat && c.toNat ≤ 70)

/-- Go `unhex`. -/
def unhex (c : Char) : Nat :=
  if isDigit c then c.toNat - 48
  else if 97 ≤ c.toNat && c.toNat ≤ 102 then c.toNat - 97 + 10
  else if 65 ≤ c.toNat && c.toNat ≤ 70 then c.toNat - 65 + 10
  else 0

/-- Go `shouldEscape(c, mode)`. -/
def shouldEscape (c : Char) (mode : Encoding) : Bool :=
  if isAlpha c || isDigit c then false
  else if (mode = .host || mode = .zone) &&
      c ∈ ['!', '$', '&', '\'', '(', ')', '*', '+', ',', ';', '=', ':', '[', ']', '<', '>', '"'] then
    false
  else if c ∈ ['-', '_', '.', '~'] then false
  else if c ∈ ['$', '&', '+', ',', '/', ':', ';', '=', '?', '@'] &&
      mode ∈ [Encoding.path, .pathSegment, .userPassword, .queryComponent, .fragment] then
    match mode with
    | .path => c = '?'
    | .pathSegment => c = '/' || c = ';' || c = ',' || c = '?'
    | .userPassword => c = '@' || c = '/' || c = '?' || c = ':'
    | .queryComponent => true
    | _ => false
  else if mode = .fragment && c ∈ ['!', '(', ')', '*'] then false
  else true

/-- Go `unescape(s, mode)`; `none` for an error. -/
def unescape (mode : Encoding) : GoString → Option GoString
  | [] => some []
  | '%' :: a :: b :: rest =>
    if !(ishex a && ishex b) then none
    else if mode = .host && unhex a < 8 && !(a = '2' && b = '5') then none
    else if mode = .zone && !(a = '2' && b = '5') && unhex a * 16 + unhex b ≠ 32 &&
        shouldEscape (Char.ofNat (unhex a * 16 + unhex b)) .host then none
    else (unescape mode rest).map (Char.ofNat (unhex a * 16 + unhex b) :: ·)
  | c :: rest =>
    if c = '%' then none
    else if c = '+' then
      (unescape mode rest).map ((if mode = .queryComponent then ' ' else '+') :: ·)
    else if (mode = .host || mode = .zone) && c.toNat < 128 && shouldEscape c .host then none
    else (unescape mode rest).map (c :: ·)

/-- The hexadecimal digit of a nibble, upper case (Go `upperhex`). -/
def upperhex (n : Nat) : Char :=
  if n < 10 then Char.ofNat (48 + n) else Char.ofNat (65 + (n - 10))

/-- Go `escape(s, mode)`. -/
def escape (mode : Encoding) : GoString → GoString
  | [] => []
  | c :: rest =>
    if shouldEscape c mode then
      if c = ' ' && mode = .queryComponent then '+' :: escape mode rest
      else '%' :: upperhex (c.toNat / 16 % 16) :: upperhex (c.toNat % 16) :: escape mode rest
    else c :: escape mode rest

/-- Go `validEncoded(s, mode)`. -/
def validEncoded (mode : Encoding) (s : GoString) : Bool :=
  s.all fun c =>
    c ∈ ['!', '$', '&', '\'', '(', ')', '*', '+', ',', ';', '=', ':', '@', '[', ']', '%'] ||
      !shouldEscape c mode

/-- Go `(*URL).setPath`; `none` for an error. -/
def URL.setPath (u : URL) (p : GoString) : Option URL :=
  match unescape .path p with
  | none => none
  | some path =>
    some { u with path := path, rawPath := if p = escape .path path then [] else p }

/-- Go `(*URL).EscapedPath`. -/
def URL.escapedPath (u : URL) : GoString :=
  if u.rawPath ≠ [] && validEncoded .path u.rawPath && unescape .path u.rawPath = some u.path then
    u.rawPath
  else if u.path = ['*'] then ['*']
  else escape .path u.path

/-- Go `(*URL).setFragment`; `none` for an error. -/
def URL.setFragment (u : URL) (f : GoString) : Option URL :=
  match unescape .fragment f with
  | none => none
  | some frag =>
    some { u with fragment := frag, rawFragment := if f = escape .fragment frag then [] else f }

/-- Go `(*URL).EscapedFragment`. -/
def URL.escapedFragment (u : URL) : GoString :=
  if u.rawFragment ≠ [] && validEncoded .fragment u.rawFragment &&
      unescape .fragment u.rawFragment = some u.fragment then
    u.rawFragment
  else escape .fragment u.fragment

/-- The loop of Go `getScheme`; `pre` holds the bytes read so far, reversed.
The result is `none` for the error "missing protocol scheme". -/
def getSchemeLoop (rawURL : GoString) : GoString → GoString → Option (GoString × GoString)
  | _, [] => some ([], rawURL)
  | pre, c :: s =>
    if isAlpha c then getSchemeLoop rawURL (c :: pre) s
    else if isDigit c || c = '+' || c = '-' || c = '.' then
      if pre.isEmpty then some ([], rawURL) else getSchemeLoop rawURL (c :: pre) s
    else if c = ':' then
      if pre.isEmpty then none else some (pre.reverse, s)
    else some ([], rawURL)

/-- Go `getScheme(rawURL)`: the scheme and the rest. -/
def getScheme (rawURL : GoString) : Option (GoString × GoString) :=
  getSchemeLoop rawURL [] rawURL

/-- Go `validOptionalPort`. -/
def validOptionalPort : GoString → Bool
  | [] => true
  | c :: ds => c = ':' && ds.all isDigit

/-- Go `validUserinfo`. -/
def validUserinfo (s : GoString) : Bool :=
  s.all fun r =>
    isAlpha r || isDigit r ||
      r ∈ ['-', '.', '_', ':', '~', '!', '$', '&', '\'', '(', ')', '*', '+', ',', ';', '=', '%', '@']

/-- The position of the first `%25` in `s` (Go `strings.Index(s, "%25")`), as the
text before it and the text from it on. -/
def cutZone : GoString → Option (GoString × GoString)
  | [] => none
  | c :: s =>
    if ['%', '2', '5'].isPrefixOf (c :: s) then some ([], c :: s)
    else (cutZone s).map fun r => (c :: r.1, r.2)

/-- Go `parseHost`; `none` for an error. -/
def parseHost (host : GoString) : Option GoString :=
  if stringsHasPrefix host ['['] then
    match cutLast ']' host with
    | none => none
    | some (inner, colonPort) =>
      if !validOptionalPort colonPort then none
      else
        match cutZone inner with
        | some (h1, z) =>
          match unescape .host h1, unescape .zone z, unescape .host (']' :: colonPort) with
          | some a, some b, some c => some (a ++ b ++ c)
          | _, _, _ => none
        | none => unescape .host host
  else
    match cutLast ':' host with
    | some (_, port) => if !validOptionalPort (':' :: port) then none else unescape .host host
    | none => unescape .host host

/-- Go `parseAuthority`; `none` for an error. -/
def parseAuthority (authority : GoString) : Option (Option Userinfo × GoString) :=
  match cutLast '@' authority with
  | none => (parseHost authority).map fun h => (none, h)
  | some (userinfo, hostPart) =>
    match parseHost hostPart with
    | none => none
    | some h =>
      if !validUserinfo userinfo then none
      else if !stringsContains userinfo [':'] then
        (unescape .userPassword userinfo).map fun u =>
          (some { username := u, password := [], passwordSet := false }, h)
      else
        let c := stringsCut ':' userinfo
        match unescape .userPassword c.1, unescape .userPassword c.2.1 with
        | some u, some p => some (some { username := u, password := p, passwordSet := true }, h)
        | _, _ => none

/-- Go `stringContainsCTLByte`. -/
def stringContainsCTLByte (s : GoString) : Bool := s.any fun b => b.toNat < 32 || b.toNat = 127

/-- ASCII lower-casing of one byte (Go `strings.ToLower` on a scheme). -/
def lowerByte (c : Char) : Char :=
  if 65 ≤ c.toNat && c.toNat ≤ 90 then Char.ofNat (c.toNat + 32) else c

/-- Go `parse(rawURL, false)`: a URL without fragment; `none` for an error. -/
def parseNoFragment (rawURL : GoString) : Option URL :=
  if stringContainsCTLByte rawURL then none
  else if rawURL = ['*'] then some { URL.zero with path := ['*'] }
  else
    match getScheme rawURL with
    | none => none
    | some (scheme0, rest0) =>
      let scheme := scheme0.map lowerByte
      let forceQuery := stringsHasSuffix rest0 ['?'] && stringsCount '?' rest0 = 1
      let rest1 := if forceQuery then rest0.dropLast else (stringsCut '?' rest0).1
      let rawQuery := if forceQuery then [] else (stringsCut '?' rest0).2.1
      let url : URL := { URL.zero with scheme := scheme, forceQuery := forceQuery, rawQuery := rawQuery }
      if !stringsHasPrefix rest1 ['/'] && scheme ≠ [] then some { url with opaquePart := rest1 }
      else if !stringsHasPrefix rest1 ['/'] && stringsContains (stringsCut '/' rest1).1 [':'] then none
      else if (scheme ≠ [] || !stringsHasPrefix rest1 ['/', '/', '/']) &&
          stringsHasPrefix rest1 ['/', '/'] then
        let afterSlashes := rest1.drop 2
        let authority := (stringsCut '/' afterSlashes).1
        let rest2 := afterSlashes.drop authority.length
        match parseAuthority authority with
        | none => none
        | some (user, host) => URL.setPath { url with user := user, host := host } rest2
      else if scheme ≠ [] && stringsHasPrefix rest1 ['/'] then
        URL.setPath { url with omitHost := true } rest1
      else URL.setPath url rest1

/-- Go `url.Parse(rawURL)`; `none` for an error. -/
def urlParse (rawURL : GoString) : Option URL :=
  let c := stringsCut '#' rawURL
  match parseNoFragment c.1 with
  | none => none
  | some url => if c.2.1 = [] then some url else url.setFragment c.2.1

/-- Go `(*Userinfo).String`. -/
def Userinfo.render (u : Userinfo) : GoString :=
  escape .userPassword u.username ++
    (if u.passwordSet then ':' :: escape .userPassword u.password else [])

/-- Go `(*URL).String`. -/
def urlString (u : URL) : GoString :=
  let schemePart := if u.scheme ≠ [] then u.scheme ++ [':'] else []
  let body :=
    if u.opaquePart ≠ [] then schemePart ++ u.opaquePart
    else
      let auth :=
        if u.scheme ≠ [] || u.host ≠ [] || u.user.isSome then
          if u.omitHost && u.host = [] && u.user.isNone then []
          else
            (if u.host ≠ [] || u.path ≠ [] || u.user.isSome then ['/', '/'] else []) ++
              (match u.user with
                | some ui => ui.render ++ ['@']
                | none => []) ++
              (if u.host ≠ [] then escape .host u.host else [])
        else []
      let path := u.escapedPath
      let slash := if path ≠ [] && path.head? ≠ some '/' && u.host ≠ [] then ['/'] else []
      let buf := schemePart ++ auth ++ slash
      let dotSlash :=
        if buf = [] && stringsContains (stringsCut '/' path).1 [':'] then ['.', '/'] else []
      buf ++ dotSlash ++ path
  let query := if u.forceQuery || u.rawQuery ≠ [] then '?' :: u.rawQuery else []
  let frag := if u.fragment ≠ [] then '#' :: u.escapedFragment else []
  body ++ query ++ frag

/-- The state of the loop of Go `resolvePath`: the bytes written to `dst` after
its leading `/`, the flag `first`, and the last element read. -/
structure ResolveState where
  dst : GoString
  first : Bool
  elem : GoString

/-- One iteration of the loop of Go `resolvePath` on the path element `elem`. -/
def resolveStep (st : ResolveState) (elem : GoString) : ResolveState :=
  if elem = ['.'] then { st with first := false, elem := elem }
  else if elem = ['.', '.'] then
    match cutLast '/' st.dst with
    | none => { dst := [], first := true, elem := elem }
    | some (before, _) => { dst := before, first := st.first, elem := elem }
  else
    { dst := st.dst ++ (if st.first then [] else ['/']) ++ elem, first := false, elem := elem }

/-- Go `resolvePath(base, ref)`. -/
def resolvePath (base ref : GoString) : GoString :=
  let full :=
    if ref = [] then base
    else if ref.head? ≠ some '/' then
      (match cutLast '/' base with
        | none => []
        | some (dir, _) => dir ++ ['/']) ++ ref
    else ref
  if full = [] then []
  else
    let st := (stringsSplit '/' full).foldl resolveStep { dst := [], first := true, elem := [] }
    let r := '/' :: (st.dst ++ (if st.elem = ['.'] || st.elem = ['.', '.'] then ['/'] else []))
    if (r.drop 1).head? = some '/' then r.drop 1 else r

/-- The assignment `url.setPath(p)` of Go `ResolveReference`, whose error is ignored. -/
def URL.setPathIgnoringError (u : URL) (p : GoString) : URL := (u.setPath p).getD u

/-- Go `(*URL).ResolveReference`: `urlResolveReference u ref` is `u.ResolveReference(ref)`. -/
def urlResolveReference (u ref : URL) : URL :=
  let url : URL := if ref.scheme = [] then { ref with scheme := u.scheme } else ref
  if ref.scheme ≠ [] || ref.host ≠ [] || ref.user.isSome then
    url.setPathIgnoringError (resolvePath ref.escapedPath [])
  else if ref.opaquePart ≠ [] then { url with user := none, host := [], path := [] }
  else
    let url1 : URL :=
      if ref.path = [] && !ref.forceQuery && ref.rawQuery = [] then
        if ref.fragment = [] then
          { url with rawQuery := u.rawQuery, fragment := u.fragment, rawFragment := u.rawFragment }
        else { url with rawQuery := u.rawQuery }
      else url
    if ref.path = [] && u.opaquePart ≠ [] then
      { url1 with opaquePart := u.opaquePart, user := none, host := [], path := [] }
    else
      URL.setPathIgnoringError { url1 with host := u.host, user := u.user }
        (resolvePath u.escapedPath ref.escapedPath)

/-- Go's package `net/url`. -/
def goUrl : UrlLib :=
  { parse := urlParse, resolveReference := urlResolveReference, render := urlString }

/-! ## Output -/

/-- The tags that label a line of output. -/
inductive Tag
  | url | subdomain | javascript | linkfinder | form | robots | sitemap | wayback
  deriving DecidableEq, Repr

/-- The observable actions of the program, in the order they happen. -/
inductive Effect
  /-- `colorPrint(tag, msg, plain)`. -/
  | print (tag : Tag) (msg : GoString) (plain : Bool)
  /-- `printToRandomFile(rawHTTPGET(url), dir)`. -/
  | saveRequest (url : GoString) (dir : GoString)
  /-- `fmt.Println(err)` for a URL that does not parse. -/
  | printError (url : GoString)
  /-- A seed handed to the collector: `c.Visit(url)`, `e.Request.Visit(url)`. -/
  | visit (url : GoString)
  deriving DecidableEq, Repr

/-! ## `printIfInScope` -/

/-- The scheme that `printIfInScope` puts in front of `msg` before parsing it
(the variable `msgSchema`). -/
def msgSchemaOf (msg : GoString) : GoString :=
  if !stringsContains msg "http://".toList && !stringsContains msg "https://".toList &&
      !stringsHasPrefix msg "/".toList then
    "https://".toList
  else []

/-- The `switch scope` of `printIfInScope`, on the host of the resolved URL. -/
def scopeAllows (scope host domain : GoString) : Bool :=
  if scope = "strict".toList then host = domain
  else if scope = "fuzzy".toList then stringsContains host domain
  else if scope = "subs".toList then stringsHasSuffix host domain
  else true

/-- The function `printIfInScope`: the returned flag and the output produced. -/
def printIfInScope (L : UrlLib) (scope : GoString) (tag : Tag) (schema domain msg : GoString)
    (plain : Bool) (outdir : GoString) : Bool × List Effect :=
  match L.parse (schema ++ domain) with
  | none => (false, [])
  | some base =>
    let msgSchema := msgSchemaOf msg
    match L.parse (msgSchema ++ msg) with
    | none => (false, [])
    | some ref =>
      let urlObj := L.resolveReference base ref
      let shouldPrint := scopeAllows scope urlObj.host domain
      if shouldPrint then
        let strVal := L.render urlObj
        let strVal := if msgSchema ≠ [] then stringsReplaceFirst strVal msgSchema [] else strVal
        (true, Effect.print tag strVal plain ::
          (if outdir ≠ [] then [Effect.saveRequest msg outdir] else []))
      else (false, [])

/-! ## Package `regexp`

The two patterns of the program, `.*llow: ` and `LinkFinderRegex`, use literals,
`.`, character classes, concatenation, alternation, groups and greedy counted
repetition of a single-character atom.  Go matches leftmost-first: the match
starts as early as possible and is the one a backtracking search finds first.
`Regex.matchK` is that backtracking search, in continuation-passing style. -/

/-- An item of a character class: one character or a range. -/
inductive ClassItem
  | single (c : Char)
  | range (lo hi : Char)
  deriving DecidableEq, Repr

/-- Whether the character `x` is in the class item. -/
def ClassItem.test : ClassItem → Char → Bool
  | .single c, x => x = c
  | .range lo hi, x => lo.toNat ≤ x.toNat && x.toNat ≤ hi.toNat

/-- A pattern that matches exactly one character. -/
inductive Atom
  /-- A literal character. -/
  | lit (c : Char)
  /-- The pattern `.`: any character but a newline. -/
  | dot
  /-- The class `[...]`. -/
  | cls (items : List ClassItem)
  /-- The negated class `[^...]`. -/
  | notCls (items : List ClassItem)
  deriving DecidableEq, Repr

/-- Whether the atom matches the character `x`. -/
def Atom.test : Atom → Char → Bool
  | .lit c, x => x = c
  | .dot, x => x ≠ '\n'
  | .cls items, x => items.any (·.test x)
  | .notCls items, x => !items.any (·.test x)

/-- The regular expressions of the program. -/
inductive Regex
  /-- The empty pattern. -/
  | empty
  /-- One character. -/
  | atom (a : Atom)
  /-- The concatenation `ab`. -/
  | cat (a b : Regex)
  /-- The alternation `a|b`, which prefers `a`. -/
  | alt (a b : Regex)
  /-- The greedy repetition `a{min,max}`, `a{min,}` when `max` is `none`. -/
  | rep (a : Atom) (min : Nat) (max : Option Nat)
  deriving Repr

/-- A continuation of the search: given the input that is left, the input left
after the whole match, or `none` when the search fails from here. -/
abbrev Cont := GoString → Option GoString

/-- The greedy repetition of a one-character test: as many characters as
possible first, then one fewer, and so on down to `min`. -/
def repK (p : Char → Bool) : GoString → Nat → Option Nat → Cont → Option GoString
  | [], min, _, k => if min = 0 then k [] else none
  | c :: t, min, max, k =>
    if p c && max ≠ some 0 then
      match repK p t (min - 1) (max.map (· - 1)) k with
      | some r => some r
      | none => if min = 0 then k (c :: t) else none
    else if min = 0 then k (c :: t) else none

/-- The backtracking search for a match of the pattern at the start of `s`,
followed by what `k` accepts. -/
def Regex.matchK : Regex → GoString → Cont → Option GoString
  | .empty, s, k => k s
  | .atom a, s, k =>
    match s with
    | [] => none
    | c :: t => if a.test c then k t else none
  | .cat a b, s, k => a.matchK s (fun t => b.matchK t k)
  | .alt a b, s, k =>
    match a.matchK s k with
    | some r => some r
    | none => b.matchK s k
  | .rep a min max, s, k => repK a.test s min max k

/-- The match of the pattern that starts at the start of `s`, as the input left
after it; `none` when no match starts there. -/
def Regex.matchAt (re : Regex) (s : GoString) : Option GoString := re.matchK s some

/-- The scan of `FindAllString`: `skip` counts the characters of `s` that belong to
the match found last. -/
def findAllScan (re : Regex) : GoString → Nat → List GoString
  | [], _ => []
  | _ :: t, skip + 1 => findAllScan re t skip
  | c :: t, 0 =>
    match re.matchAt (c :: t) with
    | some rest =>
      let n := (c :: t).length - rest.length
      (c :: t).take n :: findAllScan re t (n - 1)
    | none => findAllScan re t 0

/-- Go `re.FindAllString(s, -1)` for a pattern that matches no empty string: the
successive leftmost matches, each search starting where the last match ended. -/
def Regex.findAllString (re : Regex) (s : GoString) : List GoString := findAllScan re s 0

/-- The scan of `ReplaceAllString`, as `findAllScan`. -/
def replaceAllScan (re : Regex) (repl : GoString) : GoString → Nat → GoString
  | [], _ => []
  | _ :: t, skip + 1 => replaceAllScan re repl t skip
  | c :: t, 0 =>
    match re.matchAt (c :: t) with
    | some rest => repl ++ replaceAllScan re repl t ((c :: t).length - rest.length - 1)
    | none => c :: replaceAllScan re repl t 0

/-- Go `re.ReplaceAllString(s, repl)` for a pattern that matches no empty string
and a replacement without `$`: every match is replaced by `repl`. -/
def Regex.replaceAllString (re : Regex) (s repl : GoString) : GoString :=
  replaceAllScan re repl s 0

/-- The pattern of a literal text. -/
def Regex.text : GoString → Regex
  | [] => .empty
  | c :: t => .cat (.atom (.lit c)) (Regex.text t)

/-- The alternation of the patterns of a list, in order. -/
def Regex.oneOf : List Regex → Regex
  | [] => .empty
  | [r] => r
  | r :: rs => .alt r (Regex.oneOf rs)

/-- The concatenation of the patterns of a list. -/
def Regex.concat : List Regex → Regex
  | [] => .empty
  | [r] => r
  | r :: rs => .cat r (Regex.concat rs)

/-- The class items `a-zA-Z`. -/
def letters : List ClassItem := [.range 'a' 'z', .range 'A' 'Z']

/-- The pattern `(?:"|')`. -/
def quoteRe : Regex := .alt (.atom (.lit '"')) (.atom (.lit '\''))

/-- First branch of `LinkFinderRegex`:
`((?:[a-zA-Z]{1,10}://|//)[^"'/]{1,}\.[a-zA-Z]{2,}[^"']{0,})`. -/
def linkBranch1 : Regex :=
  Regex.concat
    [.alt (.cat (.rep (.cls letters) 1 (some 10)) (Regex.text "://".toList)) (Regex.text "//".toList),
     .rep (.notCls [.single '"', .single '\'', .single '/']) 1 none,
     .atom (.lit '.'),
     .rep (.cls letters) 2 none,
     .rep (.notCls [.single '"', .single '\'']) 0 none]

/-- Second branch: `((?:/|\.\./|\./)[^"'><,;| *()(%%$^/\\\[\]][^"'><,;|()]{1,})`. -/
def linkBranch2 : Regex :=
  Regex.concat
    [Regex.oneOf [Regex.text "/".toList, Regex.text "../".toList, Regex.text "./".toList],
     .atom (.notCls [.single '"', .single '\'', .single '>', .single '<', .single ',', .single ';',
       .single '|', .single ' ', .single '*', .single '(', .single ')', .single '(', .single '%',
       .single '%', .single '$', .single '^', .single '/', .single '\\', .single '[', .single ']']),
     .rep (.notCls [.single '"', .single '\'', .single '>', .single '<', .single ',', .single ';',
       .single '|', .single '(', .single ')']) 1 none]

/-- Third branch: `(C{1,}/C{1,}\.(?:[a-zA-Z]{1,4}|action)(?:[\?|/][^"|']{0,}|))`, where `C`
is the class of the letters, the digits, `_`, `-` and `/`, followed by the line
break that the source has inside the pattern. -/
def linkBranch3 : Regex :=
  Regex.concat
    [.rep (.cls (letters ++ [.range '0' '9', .single '_', .single '-', .single '/'])) 1 none,
     .atom (.lit '/'),
     .rep (.cls (letters ++ [.range '0' '9', .single '_', .single '-', .single '/'])) 1 none,
     .atom (.lit '.'),
     .alt (.rep (.cls letters) 1 (some 4)) (Regex.text "action".toList),
     .alt (.cat (.atom (.cls [.single '?', .single '|', .single '/']))
       (.rep (.notCls [.single '"', .single '|', .single '\'']) 0 none)) .empty,
     .atom (.lit '\n')]

/-- Fourth branch:
`([a-zA-Z0-9_\-]{1,}\.(?:php|asp|aspx|jsp|json|action|html|js|txt|xml)(?:\?[^"|']{0,}|))`. -/
def linkBranch4 : Regex :=
  Regex.concat
    [.rep (.cls (letters ++ [.range '0' '9', .single '_', .single '-'])) 1 none,
     .atom (.lit '.'),
     Regex.oneOf (["php", "asp", "aspx", "jsp", "json", "action", "html", "js", "txt", "xml"].map
       fun w => Regex.text w.toList),
     .alt (.cat (.atom (.lit '?')) (.rep (.notCls [.single '"', .single '|', .single '\'']) 0 none))
       .empty]

/-- The variable `LinkFinderRegex`. -/
def LinkFinderRegex : Regex :=
  Regex.concat [quoteRe, Regex.oneOf [linkBranch1, linkBranch2, linkBranch3, linkBranch4], quoteRe]

/-- The pattern `.*llow: ` of `parseRobots`. -/
def robotsRe : Regex := .cat (.rep .dot 0 none) (Regex.text "llow: ".toList)

/-! ## `parseRobots`, `parseSitemap`, `linkfinder` -/

/-- An HTTP response as the program reads it: the status code, and the body when
`ioutil.ReadAll` succeeds. -/
structure Response where
  status : Nat
  body : Option GoString
  deriving DecidableEq, Repr

/-- The body of the loop of `parseRobots` on one line: the URL appended to
`robotsurls`, if any. -/
def robotsEntry (schema domain line : GoString) : Option GoString :=
  if stringsContains line "llow: ".toList then
    some (schema ++ domain ++ robotsRe.replaceAllString line [])
  else none

/-- The slice `robotsurls` that `parseRobots` builds from the body of robots.txt. -/
def robotsurlsOf (schema domain body : GoString) : List GoString :=
  (stringsSplit '\n' body).filterMap (robotsEntry schema domain)

/-- The function `parseRobots`; `resp` is the result of `http.Get(robotsURL)`, `none`
for an error. -/
def parseRobots (L : UrlLib) (domain : GoString) (depth : Int) (printResult : Bool)
    (schema : GoString) (plain : Bool) (scope outdir : GoString) (resp : Option Response) :
    List Effect :=
  match resp with
  | none => []
  | some r =>
    if r.status = 200 then
      match r.body with
      | none => []
      | some body =>
        let robotsurls := robotsurlsOf schema domain body
        (if printResult then
          robotsurls.flatMap fun u => (printIfInScope L scope .robots schema domain u plain outdir).2
        else []) ++
          (if depth > 1 then robotsurls.map Effect.visit else [])
    else []

/-- The function `parseSitemap`; `locations` are the locations of the entries that
`sitemap.ParseFromSite` passes to the callback, in order. -/
def parseSitemap (L : UrlLib) (domain : GoString) (depth : Int) (printResult : Bool)
    (schema : GoString) (plain : Bool) (scope outdir : GoString) (locations : List GoString) :
    List Effect :=
  locations.flatMap fun loc =>
    (if printResult then (printIfInScope L scope .sitemap schema domain loc plain outdir).2
      else []) ++
      (if depth > 1 then [Effect.visit loc] else [])

/-- The function `linkfinder`; `resp` is the result of `client.Get(jsfile)`, `none`
for an error. -/
def linkfinder (plain : Bool) (resp : Option Response) : List Effect :=
  match resp with
  | none => []
  | some r =>
    if r.status = 200 then
      match r.body with
      | none => []
      | some res => (LinkFinderRegex.findAllString res).map fun link => Effect.print .linkfinder link plain
    else []

/-! ## `crawl` -/

/-- The command-line flags that `crawl` reads. -/
structure Config where
  depth : Int
  outdir : GoString
  includeJS : Bool
  includeSubs : Bool
  includeURLs : Bool
  includeForms : Bool
  includeRobots : Bool
  includeSitemap : Bool
  includeWayback : Bool
  includeAll : Bool
  scope : GoString
  schemaFlag : GoString
  usewayback : Bool
  runlinkfinder : Bool
  plain : Bool
  deriving DecidableEq, Repr

/-- The flags with their default values (`flag.Bool`, `flag.String`, `flag.Int` in `main`). -/
def Config.default : Config :=
  { depth := 1, outdir := [], includeJS := false, includeSubs := false, includeURLs := false,
    includeForms := false, includeRobots := false, includeSitemap := false,
    includeWayback := false, includeAll := true, scope := "subs".toList,
    schemaFlag := "http".toList, usewayback := false, runlinkfinder := false, plain := false }

/-- The variable `schema` of `crawl`. -/
def Config.schema (cfg : Config) : GoString :=
  if cfg.schemaFlag = "https".toList then "https://".toList else "http://".toList

/-- The value of `*includeAllPtr` after "set up the bools" in `crawl`. -/
def Config.all (cfg : Config) : Bool :=
  if cfg.includeJS || cfg.includeSubs || cfg.includeURLs || cfg.includeForms ||
      cfg.includeRobots || cfg.includeSitemap then false
  else cfg.includeAll

/-- The variable `printRobots` of `crawl`. -/
def Config.printRobots (cfg : Config) : Bool := cfg.includeRobots || cfg.all

/-- The variable `printSitemap` of `crawl`. -/
def Config.printSitemap (cfg : Config) : Bool := cfg.includeSitemap || cfg.all

/-- The four maps of `crawl` that store the discovered assets, as lists of keys. -/
structure Registries where
  urls : List GoString
  subdomains : List GoString
  jsfiles : List GoString
  forms : List GoString
  deriving DecidableEq, Repr

/-- The maps as `crawl` creates them. -/
def Registries.empty : Registries := { urls := [], subdomains := [], jsfiles := [], forms := [] }

/-- An event of a job: an element that the collector found, or a URL returned by
the archive. -/
inductive Event
  /-- An `a[href]` element: `e.Attr("href")` and `e.Request.AbsoluteURL(e.Attr("href"))`. -/
  | href (attr urlString : GoString)
  /-- A `script[src]` element: `e.Request.AbsoluteURL(e.Attr("src"))`, and the response
  that `linkfinder` gets when it fetches that file. -/
  | script (jsfile : GoString) (resp : Option Response)
  /-- A `form[action]` element: `e.Request.AbsoluteURL(e.Attr("action"))`. -/
  | form (action : GoString)
  /-- One element of `WaybackURLs(domain)`. -/
  | wayback (waybackurl : GoString)
  deriving DecidableEq, Repr

/-- What one event does: the maps after it, the calls of `printIfInScope` it made
(tag and message), and its output. -/
structure Step where
  reg : Registries
  calls : List (Tag × GoString)
  effects : List Effect
  deriving DecidableEq, Repr

/-- The `a[href]` callback of `crawl`. -/
def onHref (L : UrlLib) (cfg : Config) (domain : GoString) (reg : Registries)
    (attr urlString : GoString) : Step :=
  if urlString ∈ reg.urls then { reg := reg, calls := [], effects := [] }
  else if urlString = [] then { reg := reg, calls := [], effects := [Effect.visit attr] }
  else
    match L.parse urlString with
    | none => { reg := reg, calls := [], effects := [Effect.printError urlString, Effect.visit attr] }
    | some urlObj =>
      let s1 : Step :=
        if cfg.includeURLs || cfg.all then
          { reg := { reg with urls := reg.urls.insert urlString },
            calls := [(Tag.url, urlString)],
            effects := (printIfInScope L cfg.scope .url cfg.schema domain urlString cfg.plain
              cfg.outdir).2 }
        else { reg := reg, calls := [], effects := [] }
      let s2 : Step :=
        if (cfg.includeSubs || cfg.all) && !(urlObj.host ∈ s1.reg.subdomains) &&
            urlObj.host ≠ [] then
          { reg := { s1.reg with subdomains := s1.reg.subdomains.insert urlObj.host },
            calls := s1.calls ++ [(Tag.subdomain, urlObj.host)],
            effects := s1.effects ++ (printIfInScope L cfg.scope .subdomain cfg.schema domain
              urlObj.host cfg.plain cfg.outdir).2 }
        else s1
      { s2 with effects := s2.effects ++ [Effect.visit attr] }

/-- The `script[src]` callback of `crawl`, registered when JavaScript files are included. -/
def onScript (L : UrlLib) (cfg : Config) (domain : GoString) (reg : Registries)
    (jsfile : GoString) (resp : Option Response) : Step :=
  if !(cfg.includeJS || cfg.all) then { reg := reg, calls := [], effects := [] }
  else if jsfile ∈ reg.jsfiles || jsfile = [] then { reg := reg, calls := [], effects := [] }
  else
    let r := printIfInScope L cfg.scope .javascript cfg.schema domain jsfile cfg.plain cfg.outdir
    { reg := { reg with jsfiles := reg.jsfiles.insert jsfile },
      calls := [(Tag.javascript, jsfile)],
      effects := r.2 ++ (if r.1 && cfg.runlinkfinder then linkfinder cfg.plain resp else []) }

/-- The `form[action]` callback of `crawl`, registered when form actions are included. -/
def onForm (L : UrlLib) (cfg : Config) (domain : GoString) (reg : Registries)
    (action : GoString) : Step :=
  if !(cfg.includeForms || cfg.all) then { reg := reg, calls := [], effects := [] }
  else if action ∈ reg.forms || action = [] then { reg := reg, calls := [], effects := [] }
  else
    { reg := { reg with forms := reg.forms.insert action },
      calls := [(Tag.form, action)],
      effects := (printIfInScope L cfg.scope .form cfg.schema domain action cfg.plain
        cfg.outdir).2 }

/-- One iteration of the loop over `waybackurls` in `crawl`, run when `-usewayback` is set. -/
def onWayback (L : UrlLib) (cfg : Config) (domain : GoString) (reg : Registries)
    (waybackurl : GoString) : Step :=
  if !cfg.usewayback then { reg := reg, calls := [], effects := [] }
  else
    let s1 : Step :=
      if cfg.includeWayback || cfg.all then
        { reg := reg, calls := [(Tag.wayback, waybackurl)],
          effects := (printIfInScope L cfg.scope .wayback cfg.schema domain waybackurl cfg.plain
            cfg.outdir).2 }
      else { reg := reg, calls := [], effects := [] }
    match L.parse waybackurl with
    | none => s1
    | some urlObj =>
      let s2 : Step :=
        if (cfg.includeSubs || cfg.all) && !(urlObj.host ∈ reg.subdomains) && urlObj.host ≠ [] &&
            stringsContains urlObj.host domain then
          { reg := { reg with subdomains := reg.subdomains.insert urlObj.host },
            calls := s1.calls ++ [(Tag.subdomain, urlObj.host)],
            effects := s1.effects ++ (printIfInScope L cfg.scope .subdomain cfg.schema domain
              urlObj.host cfg.plain cfg.outdir).2 }
        else s1
      { s2 with effects := s2.effects ++ (if cfg.depth > 1 then [Effect.visit waybackurl] else []) }

/-- The callback or loop body that handles an event. -/
def handleEvent (L : UrlLib) (cfg : Config) (domain : GoString) (reg : Registries) :
    Event → Step
  | .href attr urlString => onHref L cfg domain reg attr urlString
  | .script jsfile resp => onScript L cfg domain reg jsfile resp
  | .form action => onForm L cfg domain reg action
  | .wayback waybackurl => onWayback L cfg domain reg waybackurl

/-- The events of a job processed one at a time, from the maps `reg`: the maps at
the end, all calls of `printIfInScope` and all output, in order. -/
def runEvents (L : UrlLib) (cfg : Config) (domain : GoString) : Registries → List Event → Step
  | reg, [] => { reg := reg, calls := [], effects := [] }
  | reg, ev :: evs =>
    let s := handleEvent L cfg domain reg ev
    let rest := runEvents L cfg domain s.reg evs
    { reg := rest.reg, calls := s.calls ++ rest.calls, effects := s.effects ++ rest.effects }

/-- What a job receives from outside: the response to the request for robots.txt,
the locations of the sitemap entries, and the events of the collector and of the loop
over the archive URLs, in the order in which they are handled. -/
structure JobInput where
  robotsResp : Option Response
  sitemapLocations : List GoString
  events : List Event
  deriving DecidableEq, Repr

/-- What a job does, one field per source: the output of `parseRobots`, the output of
`parseSitemap`, and the maps, calls and output of the callbacks and the archive loop. -/
structure JobOutput where
  robots : List Effect
  sitemap : List Effect
  events : Step
  deriving DecidableEq, Repr

/-- The function `crawl`; `none` when the domain is empty and the process exits. -/
def crawl (L : UrlLib) (domain : GoString) (cfg : Config) (input : JobInput) : Option JobOutput :=
  if domain = [] then none
  else
    some
      { robots := parseRobots L domain cfg.depth cfg.printRobots cfg.schema cfg.plain cfg.scope
          cfg.outdir input.robotsResp,
        sitemap := parseSitemap L domain cfg.depth cfg.printSitemap cfg.schema cfg.plain cfg.scope
          cfg.outdir input.sitemapLocations,
        events := runEvents L cfg domain Registries.empty input.events }

/-! ## Definitions used to state the properties -/

/-- The text after the last occurrence of the non-empty text `pat` in `s`; `none`
when `pat` does not occur in `s`. -/
def afterLast (pat : GoString) : GoString → Option GoString
  | [] => none
  | c :: t =>
    match afterLast pat t with
    | some r => some r
    | none => if pat.isPrefixOf (c :: t) then some ((c :: t).drop pat.length) else none

/-- The text of a robots.txt line after its last `llow: `; `none` for a line without
`llow: `. -/
def textAfterLlow (line : GoString) : Option GoString := afterLast "llow: ".toList line

/-- A line that carries an Allow or a Disallow directive, as robots.txt writes one:
the line starts with the field name `Allow` or `Disallow` and a colon. -/
def carriesDirective (line : GoString) : Bool :=
  stringsHasPrefix line "Allow:".toList || stringsHasPrefix line "Disallow:".toList

/-- The language of a pattern: `re.Matches m` when the text `m`, as a whole, is
matched by `re`. -/
inductive Regex.Matches : Regex → GoString → Prop
  | empty : Regex.Matches .empty []
  | atom (a : Atom) (c : Char) : a.test c = true → Regex.Matches (.atom a) [c]
  | cat (a b : Regex) (m1 m2 : GoString) :
      Regex.Matches a m1 → Regex.Matches b m2 → Regex.Matches (.cat a b) (m1 ++ m2)
  | altLeft (a b : Regex) (m : GoString) : Regex.Matches a m → Regex.Matches (.alt a b) m
  | altRight (a b : Regex) (m : GoString) : Regex.Matches b m → Regex.Matches (.alt a b) m
  | rep (a : Atom) (min : Nat) (max : Option Nat) (m : GoString) :
      (∀ c ∈ m, a.test c = true) → min ≤ m.length → (∀ n, max = some n → m.length ≤ n) →
      Regex.Matches (.rep a min max) m

/-- The successive leftmost, non-overlapping matches of a pattern in a text: either no
match starts anywhere in the text, or the text is a gap in which no match starts, then
the match that starts right after the gap, then a rest with its own successive matches. -/
inductive LeftmostMatches (re : Regex) : GoString → List GoString → Prop
  | done (s : GoString) : (∀ a b, s = a ++ b → re.matchAt b = none) → LeftmostMatches re s []
  | next (gap m rest : GoString) (ms : List GoString) : m ≠ [] →
      (∀ a b, gap = a ++ b → b ≠ [] → re.matchAt (b ++ (m ++ rest)) = none) →
      re.matchAt (m ++ rest) = some rest → LeftmostMatches re rest ms →
      LeftmostMatches re (gap ++ (m ++ rest)) (m :: ms)

/-- A quotation mark, `"` or `'`. -/
def isQuote (c : Char) : Bool := c = '"' || c = '\''

/-- The quoted token `"https://cdn.example.com/app.js"`. -/
def cdnToken : GoString := "\"https://cdn.example.com/app.js\"".toList

/-- The quoted token `'/api/v2/data.json'`. -/
def apiToken : GoString := "'/api/v2/data.json'".toList

/-- The calls of `printIfInScope` that belong to one of the four dedup maps. -/
def registryCalls (calls : List (Tag × GoString)) : List (Tag × GoString) :=
  calls.filter fun c => c.1 = Tag.url || c.1 = Tag.subdomain || c.1 = Tag.javascript || c.1 = Tag.form

/-- A line of output with one of the tags of the four dedup maps. -/
def isRegistryPrint : Effect → Bool
  | .print t _ _ => t = Tag.url || t = Tag.subdomain || t = Tag.javascript || t = Tag.form
  | _ => false

/-- The map of `crawl` that stores the keys of a tag; the other tags have none. -/
def Registries.ofTag (reg : Registries) : Tag → List GoString
  | .url => reg.urls
  | .subdomain => reg.subdomains
  | .javascript => reg.jsfiles
  | .form => reg.forms
  | _ => []

/-- The discoveries that an event yields in the four categories with a dedup map,
before deduplication: the category must be included in the output, the key must
not be empty, and a host taken from an archive URL must contain the domain. -/
def Event.discoveries (L : UrlLib) (cfg : Config) (domain : GoString) :
    Event → List (Tag × GoString)
  | .href _ urlString =>
    if urlString = [] then []
    else
      match L.parse urlString with
      | none => []
      | some urlObj =>
        (if cfg.includeURLs || cfg.all then [(Tag.url, urlString)] else []) ++
          (if (cfg.includeSubs || cfg.all) && urlObj.host ≠ [] then [(Tag.subdomain, urlObj.host)]
            else [])
  | .script jsfile _ =>
    if (cfg.includeJS || cfg.all) && jsfile ≠ [] then [(Tag.javascript, jsfile)] else []
  | .form action =>
    if (cfg.includeForms || cfg.all) && action ≠ [] then [(Tag.form, action)] else []
  | .wayback waybackurl =>
    if !cfg.usewayback then []
    else
      match L.parse waybackurl with
      | none => []
      | some urlObj =>
        if (cfg.includeSubs || cfg.all) && urlObj.host ≠ [] && stringsContains urlObj.host domain
        then [(Tag.subdomain, urlObj.host)]
        else []

/-- A first-claim-wins set applied to a sequence of discoveries: a discovery is
kept when its category and key are not in `seen`, and is then added to `seen`. -/
def firstClaims : List (Tag × GoString) → List (Tag × GoString) → List (Tag × GoString)
  | _, [] => []
  | seen, d :: ds => if d ∈ seen then firstClaims seen ds else d :: firstClaims (d :: seen) ds

/-- What a step does to the dedup maps, in terms of its calls: the calls are
distinct, each has a new, non-empty key, and the maps gain exactly these keys. -/
structure StepOk (reg : Registries) (s : Step) : Prop where
  nodup : (registryCalls s.calls).Nodup
  fresh : ∀ t k, (t, k) ∈ registryCalls s.calls → k ∉ reg.ofTag t ∧ k ≠ []
  grows : ∀ t k, k ∈ s.reg.ofTag t ↔ k ∈ reg.ofTag t ∨ (t, k) ∈ registryCalls s.calls

/-- The output of a step in the four categories is what `printIfInScope` printed
for its calls. -/
def OutputOk (L : UrlLib) (cfg : Config) (domain : GoString) (s : Step) : Prop :=
  s.effects.filter isRegistryPrint =
    (registryCalls s.calls).flatMap fun c =>
      (printIfInScope L cfg.scope c.1 cfg.schema domain c.2 cfg.plain cfg.outdir).2.filter
        isRegistryPrint

/-- The flag that includes the category of a tag in the output. -/
def Config.includes (cfg : Config) : Tag → Bool
  | .url => cfg.includeURLs
  | .subdomain => cfg.includeSubs
  | .javascript => cfg.includeJS
  | .linkfinder => cfg.includeJS
  | .form => cfg.includeForms
  | .robots => cfg.includeRobots
  | .sitemap => cfg.includeSitemap
  | .wayback => cfg.includeWayback

/-- The maps agree with a list of claimed discoveries. -/
def SeenOk (seen : List (Tag × GoString)) (reg : Registries) : Prop :=
  ∀ t k, (t, k) ∈ seen ↔ k ∈ reg.ofTag t

/-- Every URL in the map `urls` has had its host put in the map `subdomains`, when
subdomains are included in the output. -/
def UrlsOk (L : UrlLib) (cfg : Config) (reg : Registries) : Prop :=
  ∀ u ∈ reg.urls, ∀ o, L.parse u = some o → (cfg.includeSubs || cfg.all) = true → o.host ≠ [] →
    o.host ∈ reg.subdomains

/-! ## Package `strings`: the functions decide the list relations -/

/-- Go `strings.HasPrefix` decides the prefix relation. -/
theorem stringsHasPrefix_iff (s p : GoString) : stringsHasPrefix s p = true ↔ p <+: s := by
  simp [stringsHasPrefix]

/-- Go `strings.HasSuffix` decides the suffix relation. -/
theorem stringsHasSuffix_iff (s p : GoString) : stringsHasSuffix s p = true ↔ p <:+ s := by
  simp [stringsHasSuffix, List.reverse_prefix]

/-- Go `strings.Contains` decides the substring relation. -/
theorem stringsContains_iff (s sub : GoString) : stringsContains s sub = true ↔ sub <:+: s := by
  induction s with
  | nil => cases sub <;> simp [stringsContains]
  | cons c s ih =>
    rw [stringsContains, Bool.or_eq_true, ih, List.infix_cons_iff, List.isPrefixOf_iff_prefix]

/-! ## `printIfInScope`: the scope policies -/

/-- The scheme put in front of a candidate is either none or `https://`. -/
theorem msgSchemaOf_cases (msg : GoString) :
    msgSchemaOf msg = [] ∨ msgSchemaOf msg = "https://".toList := by
  unfold msgSchemaOf
  split <;> simp

/-- The `switch scope` of `printIfInScope` decides the three host policies; any other scope
allows. -/
theorem scopeAllows_iff (scope host domain : GoString) :
    scopeAllows scope host domain = true ↔
      (scope = "strict".toList → host = domain) ∧
      (scope = "subs".toList → domain <:+ host) ∧
      (scope = "fuzzy".toList → domain <:+: host) := by
  unfold scopeAllows
  by_cases h1 : scope = "strict".toList
  · subst h1; simp
  · by_cases h2 : scope = "fuzzy".toList
    · subst h2
      simp only [h1, if_false, if_true, stringsContains_iff]
      simp
    · by_cases h3 : scope = "subs".toList
      · subst h3
        simp only [h1, h2, if_false, if_true, stringsHasSuffix_iff]
        simp
      · rw [if_neg h1, if_neg h2, if_neg h3]
        exact ⟨fun _ => ⟨fun h => absurd h h1, fun h => absurd h h3, fun h => absurd h h2⟩,
          fun _ => rfl⟩

/-- When both URLs parse, the flag returned by `printIfInScope` is the verdict of the scope
policy on the host of the resolved URL. -/
theorem printIfInScope_fst (L : UrlLib) (scope : GoString) (tag : Tag)
    (schema domain msg : GoString) (plain : Bool) (outdir : GoString) (base ref : URL)
    (hbase : L.parse (schema ++ domain) = some base)
    (hmsg : L.parse (msgSchemaOf msg ++ msg) = some ref) :
    (printIfInScope L scope tag schema domain msg plain outdir).1 =
      scopeAllows scope (L.resolveReference base ref).host domain := by
  unfold printIfInScope
  simp only [hbase, hmsg]
  split <;> simp_all

/-- A rejected candidate produces no output. -/
theorem printIfInScope_false (L : UrlLib) (scope : GoString) (tag : Tag)
    (schema domain msg : GoString) (plain : Bool) (outdir : GoString)
    (h : (printIfInScope L scope tag schema domain msg plain outdir).1 = false) :
    printIfInScope L scope tag schema domain msg plain outdir = (false, []) := by
  unfold printIfInScope at h ⊢
  dsimp only at h ⊢
  cases hb : L.parse (schema ++ domain) with
  | none => rfl
  | some base =>
    rw [hb] at h
    dsimp only at h ⊢
    cases hr : L.parse (msgSchemaOf msg ++ msg) with
    | none => rfl
    | some ref =>
      rw [hr] at h
      dsimp only at h ⊢
      by_cases hs : scopeAllows scope (L.resolveReference base ref).host domain = true
      · rw [if_pos hs] at h
        exact absurd h (by simp)
      · rw [if_neg hs]

/-- The output of `printIfInScope` is empty or starts with one line that carries the tag it
was given. -/
theorem printIfInScope_snd (L : UrlLib) (scope : GoString) (tag : Tag)
    (schema domain msg : GoString) (plain : Bool) (outdir : GoString) :
    (printIfInScope L scope tag schema domain msg plain outdir).2 = [] ∨
    ∃ text, (printIfInScope L scope tag schema domain msg plain outdir).2 =
      Effect.print tag text plain :: (if outdir ≠ [] then [Effect.saveRequest msg outdir] else []) := by
  unfold printIfInScope
  cases L.parse (schema ++ domain) with
  | none => exact Or.inl rfl
  | some base =>
    dsimp only
    cases L.parse (msgSchemaOf msg ++ msg) with
    | none => exact Or.inl rfl
    | some ref =>
      dsimp only
      by_cases hs : scopeAllows scope (L.resolveReference base ref).host domain = true
      · rw [if_pos hs]; exact Or.inr ⟨_, rfl⟩
      · rw [if_neg hs]; exact Or.inl rfl

/-- Replacing the first occurrence of a non-empty prefix by nothing removes that prefix. -/
theorem stringsReplaceFirst_prefix (p rest : GoString) (hp : p ≠ []) :
    stringsReplaceFirst (p ++ rest) p [] = rest := by
  cases p with
  | nil => exact absurd rfl hp
  | cons c p =>
    rw [List.cons_append, stringsReplaceFirst]
    have h : (c :: p).isPrefixOf (c :: (p ++ rest)) = true := by
      rw [← List.cons_append, List.isPrefixOf_iff_prefix]
      exact List.prefix_append _ _
    rw [if_pos h]
    simp

/-- The output of `printIfInScope` for an accepted candidate: one line, the rendering
of the resolved URL, from which the first `https://` is removed when that scheme was put
in front of the candidate; followed by the saved request when an output directory is set. -/
theorem printIfInScope_output (L : UrlLib) (scope : GoString) (tag : Tag)
    (schema domain msg : GoString) (plain : Bool) (outdir : GoString) (base ref : URL)
    (hbase : L.parse (schema ++ domain) = some base)
    (hmsg : L.parse (msgSchemaOf msg ++ msg) = some ref)
    (hacc : (printIfInScope L scope tag schema domain msg plain outdir).1 = true) :
    (printIfInScope L scope tag schema domain msg plain outdir).2 =
      Effect.print tag
          (if msgSchemaOf msg ≠ [] then
            stringsReplaceFirst (L.render (L.resolveReference base ref)) (msgSchemaOf msg) []
          else L.render (L.resolveReference base ref)) plain ::
        (if outdir ≠ [] then [Effect.saveRequest msg outdir] else []) := by
  rw [printIfInScope_fst L scope tag schema domain msg plain outdir base ref hbase hmsg] at hacc
  unfold printIfInScope
  simp only [hbase, hmsg]
  rw [if_pos hacc]

/-- C1 (amended): when the base URL `schema ++ domain` parses and the candidate parses
once `https://` has been put in front of it (which is done unless the candidate contains
`http://` or `https://` or starts with `/`), `printIfInScope` returns true exactly when
the host of that URL resolved against the base equals the domain (scope `strict`), ends
with the domain (`subs`) or contains the domain (`fuzzy`); for any other scope string it
returns true. -/
theorem printIfInScope_accepts_iff (L : UrlLib) (scope : GoString) (tag : Tag)
    (schema domain msg : GoString) (plain : Bool) (outdir : GoString) (base ref : URL)
    (hbase : L.parse (schema ++ domain) = some base)
    (hmsg : L.parse (msgSchemaOf msg ++ msg) = some ref) :
    ((printIfInScope L scope tag schema domain msg plain outdir).1 = true ↔
      (scope = "strict".toList → (L.resolveReference base ref).host = domain) ∧
      (scope = "subs".toList → domain <:+ (L.resolveReference base ref).host) ∧
      (scope = "fuzzy".toList → domain <:+: (L.resolveReference base ref).host)) ∧
    (msgSchemaOf msg =
      if "http://".toList <:+: msg ∨ "https://".toList <:+: msg ∨ "/".toList <+: msg then []
      else "https://".toList) := by
  refine ⟨?_, ?_⟩
  · rw [printIfInScope_fst L scope tag schema domain msg plain outdir base ref hbase hmsg]
    exact scopeAllows_iff _ _ _
  · unfold msgSchemaOf
    simp only [← stringsContains_iff, ← stringsHasPrefix_iff]
    generalize stringsContains msg "http://".toList = a
    generalize stringsContains msg "https://".toList = b
    generalize stringsHasPrefix msg "/".toList = c
    cases a <;> cases b <;> cases c <;> simp

/-- The examples of the scope policies for the domain `example.com`: `strict` accepts
`http://example.com/x` and rejects `http://api.example.com/x`, `subs` accepts both,
`fuzzy` accepts `http://notexample.com.evil.com/x`, which `subs` rejects, and `yolo`
accepts a URL of another domain. -/
theorem printIfInScope_accepts_iff_witness :
    (printIfInScope goUrl "strict".toList .url "http://".toList "example.com".toList
        "http://example.com/x".toList false []).1 = true ∧
    (printIfInScope goUrl "strict".toList .url "http://".toList "example.com".toList
        "http://api.example.com/x".toList false []).1 = false ∧
    (printIfInScope goUrl "subs".toList .url "http://".toList "example.com".toList
        "http://example.com/x".toList false []).1 = true ∧
    (printIfInScope goUrl "subs".toList .url "http://".toList "example.com".toList
        "http://api.example.com/x".toList false []).1 = true ∧
    (printIfInScope goUrl "fuzzy".toList .url "http://".toList "example.com".toList
        "http://notexample.com.evil.com/x".toList false []).1 = true ∧
    (printIfInScope goUrl "subs".toList .url "http://".toList "example.com".toList
        "http://notexample.com.evil.com/x".toList false []).1 = false ∧
    (printIfInScope goUrl "yolo".toList .url "http://".toList "example.com".toList
        "http://another.org/x".toList false []).1 = true := by
  refine ⟨?_, by decide, by decide, by decide, by decide, by decide, by decide⟩
  exact ((printIfInScope_accepts_iff goUrl "strict".toList .url "http://".toList
    "example.com".toList "http://example.com/x".toList false []
    { URL.zero with scheme := "http".toList, host := "example.com".toList }
    { URL.zero with scheme := "http".toList, host := "example.com".toList, path := "/x".toList }
    (by decide) (by decide)).1).2
      ⟨fun _ => by decide, fun h => absurd h (by decide), fun h => absurd h (by decide)⟩

/-- The claim C1 as stated fails. Under `strict`, the bare host `api.example.com`
parses and, resolved against the base `http://example.com`, has the host `example.com`,
which is the domain; `printIfInScope` returns false, because it resolves
`https://api.example.com`. Under `yolo`, the candidate `javascript:void(0)` parses, and
`printIfInScope` returns false, because `https://javascript:void(0)` does not parse. -/
theorem printIfInScope_bare_host_strict :
    ((goUrl.parse ("http://".toList ++ "example.com".toList)).bind fun base =>
      (goUrl.parse "api.example.com".toList).map fun ref =>
        (goUrl.resolveReference base ref).host) = some "example.com".toList ∧
    (printIfInScope goUrl "strict".toList .subdomain "http://".toList "example.com".toList
      "api.example.com".toList false []).1 = false ∧
    (goUrl.parse ("http://".toList ++ "example.com".toList)).isSome = true ∧
    (goUrl.parse "javascript:void(0)".toList).isSome = true ∧
    (printIfInScope goUrl "yolo".toList .url "http://".toList "example.com".toList
      "javascript:void(0)".toList false []).1 = false := by
  decide

/-- C2, at the failing input: under `yolo` the empty candidate and the candidate
`?page=2` get the scheme `https://`, the resolved URL renders as `https:` and
`https:?page=2`, in which `strings.Replace` finds no `https://`, so the scheme that the
function put in front is printed; for the bare host `api.example.com` it is removed, and
a candidate with a scheme or a leading `/` is printed as the resolved URL renders. -/
theorem printIfInScope_keeps_synthesized_scheme :
    printIfInScope goUrl "yolo".toList .sitemap "http://".toList "example.com".toList [] false [] =
      (true, [Effect.print .sitemap "https:".toList false]) ∧
    printIfInScope goUrl "yolo".toList .sitemap "http://".toList "example.com".toList
        "?page=2".toList false [] =
      (true, [Effect.print .sitemap "https:?page=2".toList false]) ∧
    printIfInScope goUrl "subs".toList .subdomain "http://".toList "example.com".toList
        "api.example.com".toList false [] =
      (true, [Effect.print .subdomain "api.example.com".toList false]) ∧
    printIfInScope goUrl "subs".toList .url "http://".toList "example.com".toList
        "http://example.com/x".toList false [] =
      (true, [Effect.print .url "http://example.com/x".toList false]) ∧
    printIfInScope goUrl "subs".toList .url "http://".toList "example.com".toList
        "/foo".toList false [] =
      (true, [Effect.print .url "http://example.com/foo".toList false]) := by
  decide

/-- C6 (amended): under the scopes `strict`, `subs` and `fuzzy`, for a non-empty domain,
a candidate whose resolved URL has an empty host is rejected: `printIfInScope` returns
false and produces no output. -/
theorem printIfInScope_rejects_empty_host (L : UrlLib) (scope : GoString) (tag : Tag)
    (schema domain msg : GoString) (plain : Bool) (outdir : GoString) (base ref : URL)
    (hbase : L.parse (schema ++ domain) = some base)
    (hmsg : L.parse (msgSchemaOf msg ++ msg) = some ref)
    (hscope : scope = "strict".toList ∨ scope = "subs".toList ∨ scope = "fuzzy".toList)
    (hdomain : domain ≠ [])
    (hhost : (L.resolveReference base ref).host = []) :
    printIfInScope L scope tag schema domain msg plain outdir = (false, []) := by
  apply printIfInScope_false
  rw [printIfInScope_fst L scope tag schema domain msg plain outdir base ref hbase hmsg, hhost]
  cases h : scopeAllows scope [] domain with
  | false => rfl
  | true =>
    exfalso
    obtain ⟨h1, h2, h3⟩ := (scopeAllows_iff scope [] domain).1 h
    rcases hscope with hs | hs | hs
    · exact hdomain (h1 hs).symm
    · exact hdomain (List.eq_nil_of_suffix_nil (h2 hs))
    · exact hdomain (List.eq_nil_of_infix_nil (h3 hs))

/-- The candidate `http:///admin`, whose host is empty, is rejected under `fuzzy`. -/
theorem printIfInScope_rejects_empty_host_witness :
    printIfInScope goUrl "fuzzy".toList .url "http://".toList "example.com".toList
      "http:///admin".toList false [] = (false, []) :=
  printIfInScope_rejects_empty_host goUrl "fuzzy".toList .url "http://".toList
    "example.com".toList "http:///admin".toList false []
    { URL.zero with scheme := "http".toList, host := "example.com".toList }
    { URL.zero with scheme := "http".toList, path := "/admin".toList }
    (by decide) (by decide) (by decide) (by decide) (by decide)

/-- The claim C6 as stated fails under `yolo`: the candidate `http:///admin` resolves to a
URL with an empty host, and `printIfInScope` returns true and prints it. -/
theorem printIfInScope_yolo_accepts_empty_host :
    ((goUrl.parse ("http://".toList ++ "example.com".toList)).bind fun base =>
      (goUrl.parse (msgSchemaOf "http:///admin".toList ++ "http:///admin".toList)).map fun ref =>
        (goUrl.resolveReference base ref).host) = some [] ∧
    printIfInScope goUrl "yolo".toList .url "http://".toList "example.com".toList
        "http:///admin".toList false [] =
      (true, [Effect.print .url "http:///admin".toList false]) := by
  decide

/-! ## `parseRobots`: the pattern `.*llow: ` strips up to the last `llow: ` -/

/-- A literal text matches exactly when it is a prefix of the input, and consumes it. -/
theorem text_matchK (pat : GoString) : ∀ (t : GoString) (k : Cont),
    (Regex.text pat).matchK t k = if pat.isPrefixOf t then k (t.drop pat.length) else none := by
  induction pat with
  | nil => intro t k; simp [Regex.text, Regex.matchK]
  | cons c p ih =>
    intro t k
    cases t with
    | nil => simp [Regex.text, Regex.matchK, List.isPrefixOf]
    | cons d t =>
      simp only [Regex.text, Regex.matchK, Atom.test, ih]
      by_cases h : d = c
      · subst h; simp [List.isPrefixOf]
      · have h2 : ¬ c = d := fun e => h e.symm
        simp [List.isPrefixOf, h, h2]

/-- On a line, the pattern `.*` followed by a literal text matches up to the end of the last
occurrence of that text. -/
theorem dotStar_text_matchAt (pat s : GoString) (hs : '\n' ∉ s) (hp : pat ≠ []) :
    (Regex.cat (.rep .dot 0 none) (Regex.text pat)).matchAt s = afterLast pat s := by
  unfold Regex.matchAt
  simp only [Regex.matchK]
  induction s with
  | nil =>
    cases pat with
    | nil => exact absurd rfl hp
    | cons a p => simp [repK, afterLast, text_matchK, List.isPrefixOf]
  | cons c t ih =>
    have hc : c ≠ '\n' := fun e => hs (by simp [e])
    have ht : '\n' ∉ t := fun e => hs (by simp [e])
    rw [repK, afterLast, ← ih ht]
    simp [Atom.test, hc, text_matchK]

/-- On a line, the pattern of `parseRobots` matches up to the end of the last `llow: `. -/
theorem robotsRe_matchAt (s : GoString) (hs : '\n' ∉ s) :
    robotsRe.matchAt s = afterLast "llow: ".toList s :=
  dotStar_text_matchAt _ s hs (by decide)

/-- A text without an occurrence of `pat` from its first character on has none from its
second character on. -/
theorem afterLast_none_tail (pat : GoString) (c : Char) (t : GoString)
    (h : afterLast pat (c :: t) = none) : afterLast pat t = none := by
  rw [afterLast] at h
  cases ht : afterLast pat t with
  | none => rfl
  | some r => rw [ht] at h; exact absurd h (by simp)

/-- A text without an occurrence of `pat` has none after dropping characters. -/
theorem afterLast_none_drop (pat : GoString) : ∀ (n : Nat) (s : GoString),
    afterLast pat s = none → afterLast pat (s.drop n) = none := by
  intro n
  induction n with
  | zero => intro s h; simpa using h
  | succ n ih =>
    intro s h
    cases s with
    | nil => simpa using h
    | cons c t => simpa using ih t (afterLast_none_tail pat c t h)

/-- What `afterLast` returns follows an occurrence of `pat` and holds no further occurrence. -/
theorem afterLast_some (pat : GoString) (hne : pat ≠ []) : ∀ (s r : GoString),
    afterLast pat s = some r → (∃ pre, s = pre ++ pat ++ r) ∧ afterLast pat r = none := by
  intro s
  induction s with
  | nil => intro r h; simp [afterLast] at h
  | cons c t ih =>
    intro r h
    rw [afterLast] at h
    cases ht : afterLast pat t with
    | some r2 =>
      rw [ht] at h
      simp only [Option.some.injEq] at h
      subst h
      obtain ⟨⟨pre, hpre⟩, hn⟩ := ih r2 ht
      exact ⟨⟨c :: pre, by simp [hpre]⟩, hn⟩
    | none =>
      rw [ht] at h
      by_cases hp : pat.isPrefixOf (c :: t) = true
      · rw [if_pos hp] at h
        simp only [Option.some.injEq] at h
        subst h
        refine ⟨⟨[], ?_⟩, ?_⟩
        · obtain ⟨u, hu⟩ := List.isPrefixOf_iff_prefix.1 hp
          rw [← hu]; simp
        · cases pat with
          | nil => exact absurd rfl hne
          | cons a p =>
            have : (c :: t).drop (a :: p).length = t.drop p.length := by simp
            rw [this]
            exact afterLast_none_drop _ _ t ht
      · rw [if_neg hp] at h
        exact absurd h (by simp)

/-- There is a text after the last occurrence exactly when `strings.Contains` finds an
occurrence. -/
theorem afterLast_isSome (pat : GoString) (hne : pat ≠ []) (s : GoString) :
    (afterLast pat s).isSome = stringsContains s pat := by
  induction s with
  | nil => cases pat with
    | nil => exact absurd rfl hne
    | cons a p => simp [afterLast, stringsContains]
  | cons c t ih =>
    rw [afterLast, stringsContains, ← ih]
    cases afterLast pat t with
    | some r => simp
    | none => by_cases hp : pat.isPrefixOf (c :: t) = true <;> simp [hp]

/-- No text after a last occurrence means that `pat` is not a substring. -/
theorem afterLast_none_iff (pat : GoString) (hne : pat ≠ []) (s : GoString) :
    afterLast pat s = none ↔ ¬ pat <:+: s := by
  rw [← stringsContains_iff, ← afterLast_isSome pat hne]
  cases afterLast pat s <;> simp

/-- After `llow: ` followed by a path without `llow: `, the last occurrence is that one. -/
theorem afterLast_llow_append (pre path : GoString)
    (h : afterLast "llow: ".toList path = none) :
    afterLast "llow: ".toList (pre ++ "llow: ".toList ++ path) = some path := by
  induction pre with
  | nil =>
    simp only [String.toList] at h
    simp [afterLast, List.isPrefixOf, h]
  | cons c pre ih =>
    rw [List.cons_append, List.cons_append, afterLast, ih]

/-- Skipping the matched characters resumes the scan right after them. -/
theorem replaceAllScan_skip (re : Regex) (repl : GoString) : ∀ (a b : GoString),
    replaceAllScan re repl (a ++ b) a.length = replaceAllScan re repl b 0 := by
  intro a
  induction a with
  | nil => intro b; simp
  | cons c a ih => intro b; simpa [replaceAllScan] using ih b

/-- A line without `llow: ` is left as it is by the replacement. -/
theorem replaceAllScan_robots_none : ∀ (t : GoString), '\n' ∉ t →
    afterLast "llow: ".toList t = none → replaceAllScan robotsRe [] t 0 = t := by
  intro t
  induction t with
  | nil => intro _ _; simp [replaceAllScan]
  | cons c t ih =>
    intro hs h
    have ht : '\n' ∉ t := fun e => hs (by simp [e])
    rw [replaceAllScan, robotsRe_matchAt _ hs, h]
    simp only
    rw [ih ht (afterLast_none_tail _ c t h)]

/-- On a line, `re.ReplaceAllString(line, "")` leaves the text after the last `llow: `, or
the whole line when there is none. -/
theorem robotsRe_replaceAll (s : GoString) (hs : '\n' ∉ s) :
    robotsRe.replaceAllString s [] = (afterLast "llow: ".toList s).getD s := by
  unfold Regex.replaceAllString
  cases s with
  | nil => simp [replaceAllScan, afterLast]
  | cons c t =>
    cases h : afterLast "llow: ".toList (c :: t) with
    | none => simpa using replaceAllScan_robots_none (c :: t) hs h
    | some r =>
      obtain ⟨⟨pre, hpre⟩, hn⟩ := afterLast_some _ (by decide) _ _ h
      have hr : '\n' ∉ r := fun e => hs (by rw [hpre]; simp [e])
      rw [replaceAllScan, robotsRe_matchAt _ hs, h]
      simp only [List.nil_append, Option.getD_some]
      obtain ⟨u, hu⟩ : ∃ u, pre ++ "llow: ".toList = c :: u := by
        cases pre with
        | nil => simp at hpre; exact ⟨_, by rw [List.nil_append]; exact (List.cons_eq_cons.2 ⟨hpre.1.symm, rfl⟩)⟩
        | cons d pre => simp at hpre; exact ⟨pre ++ "llow: ".toList, by simp [hpre.1]⟩
      have ht : t = u ++ r := by
        rw [hu] at hpre
        simpa using hpre
      have hlen : (c :: t).length - r.length - 1 = u.length := by
        rw [ht]; simp only [List.length_cons, List.length_append]; omega
      rw [hlen, ht, replaceAllScan_skip, replaceAllScan_robots_none r hr hn]

/-- The pieces of `strings.Split` do not contain the separator. -/
theorem stringsSplit_no_sep (sep : Char) : ∀ (s : GoString), ∀ l ∈ stringsSplit sep s, sep ∉ l := by
  intro s
  induction s with
  | nil => simp [stringsSplit]
  | cons c s ih =>
    intro l hl
    rw [stringsSplit] at hl
    by_cases hc : c = sep
    · rw [if_pos hc] at hl
      rcases List.mem_cons.1 hl with h | h
      · simp [h]
      · exact ih l h
    · rw [if_neg hc] at hl
      cases hsp : stringsSplit sep s with
      | nil => rw [hsp] at hl; simp at hl; subst hl; simpa using fun e => hc e.symm
      | cons l0 ls =>
        rw [hsp] at hl
        simp only [List.mem_cons] at hl
        rcases hl with h | h
        · subst h
          have := ih l0 (by rw [hsp]; simp)
          simp only [List.mem_cons, not_or]
          exact ⟨fun e => hc e.symm, this⟩
        · exact ih l (by rw [hsp]; simp [h])

/-- A text without the separator is its own single piece. -/
theorem stringsSplit_single (sep : Char) : ∀ (s : GoString), sep ∉ s → stringsSplit sep s = [s] := by
  intro s
  induction s with
  | nil => intro _; rfl
  | cons c s ih =>
    intro h
    have hc : ¬ c = sep := fun e => h (by simp [e])
    have hs : sep ∉ s := fun e => h (by simp [e])
    rw [stringsSplit, if_neg hc, ih hs]

/-- The URL that the loop of `parseRobots` appends for a line is `schema ++ domain` followed
by the path after the directive. -/
theorem robotsEntry_eq (schema domain line : GoString) (hs : '\n' ∉ line) :
    robotsEntry schema domain line =
      (textAfterLlow line).map fun path => schema ++ domain ++ path := by
  unfold robotsEntry textAfterLlow
  rw [← afterLast_isSome _ (by decide), robotsRe_replaceAll _ hs]
  cases afterLast "llow: ".toList line <;> simp

/-- The slice `robotsurls` holds, in line order, `schema ++ domain ++ path` for the lines
with a directive. -/
theorem robotsurlsOf_eq (schema domain body : GoString) :
    robotsurlsOf schema domain body =
      (stringsSplit '\n' body).filterMap fun line =>
        (textAfterLlow line).map fun path => schema ++ domain ++ path := by
  unfold robotsurlsOf
  apply List.filterMap_congr
  intro line hl
  exact robotsEntry_eq schema domain line (stringsSplit_no_sep '\n' body line hl)

/-- C4 (amended): for a robots.txt body returned with status 200 and robots output
enabled, `parseRobots` passes to `printIfInScope`, in line order, one entry for each line
of the body (split at `\n`) that contains the text `llow: `, the entry being
`schema ++ domain` followed by the text of the line after its last `llow: `, and nothing
for a line without `llow: ` (after these come the seeds, when the depth is above 1); the
body `User-agent: *\nDisallow: /admin\nAllow: /public\n` gives exactly the two entries
with the paths `/admin` and `/public`. -/
theorem parseRobots_entries (L : UrlLib) (domain : GoString) (depth : Int) (schema : GoString)
    (plain : Bool) (scope outdir body : GoString) :
    (robotsurlsOf schema domain body =
      (stringsSplit '\n' body).filterMap fun line =>
        (textAfterLlow line).map fun path => schema ++ domain ++ path) ∧
    (parseRobots L domain depth true schema plain scope outdir
        (some { status := 200, body := some body }) =
      ((robotsurlsOf schema domain body).flatMap fun entry =>
          (printIfInScope L scope .robots schema domain entry plain outdir).2) ++
        (if depth > 1 then (robotsurlsOf schema domain body).map Effect.visit else [])) ∧
    (∀ line : GoString, (textAfterLlow line).isSome = true ↔ "llow: ".toList <:+: line) ∧
    (∀ line path : GoString, textAfterLlow line = some path →
      (∃ pre, line = pre ++ "llow: ".toList ++ path) ∧ ¬ "llow: ".toList <:+: path) ∧
    robotsurlsOf "http://".toList "example.com".toList
        "User-agent: *\nDisallow: /admin\nAllow: /public\n".toList =
      ["http://example.com/admin".toList, "http://example.com/public".toList] := by
  refine ⟨robotsurlsOf_eq schema domain body, ?_, ?_, ?_, by decide⟩
  · simp [parseRobots]
  · intro line
    unfold textAfterLlow
    rw [afterLast_isSome _ (by decide), stringsContains_iff]
  · intro line path h
    unfold textAfterLlow at h
    obtain ⟨hpre, hn⟩ := afterLast_some _ (by decide) _ _ h
    exact ⟨hpre, (afterLast_none_iff _ (by decide) _).1 hn⟩

/-- The claim C4 as stated fails in both directions: the comment line
`# crawlers may follow: /x` carries no Allow or Disallow directive and yields the entry
`http://example.com/x`, and the line `Disallow:/admin` carries a Disallow directive and
yields no entry. -/
theorem parseRobots_directive_lines_differ :
    carriesDirective "# crawlers may follow: /x".toList = false ∧
    robotsurlsOf "http://".toList "example.com".toList "# crawlers may follow: /x\n".toList =
      ["http://example.com/x".toList] ∧
    carriesDirective "Disallow:/admin".toList = true ∧
    robotsurlsOf "http://".toList "example.com".toList "Disallow:/admin\n".toList = [] ∧
    parseRobots goUrl "example.com".toList 1 true "http://".toList false "subs".toList []
        (some { status := 200,
                body := some "# crawlers may follow: /x\nDisallow:/admin\n".toList }) =
      [Effect.print .robots "http://example.com/x".toList false] := by
  decide

/-- C8 (amended): `parseRobots` recognises a directive by the substring `llow: `, in
lower case: a line `pre ++ "llow: " ++ path` yields the entry `schema ++ domain ++ path`
whatever `pre` is (so the case of the letters before `llow: ` does not matter), and a
line without `llow: ` yields no entry. -/
theorem parseRobots_directive_case_sensitive (schema domain pre path : GoString)
    (hpre : '\n' ∉ pre) (hpath : '\n' ∉ path) (hfree : ¬ "llow: ".toList <:+: path) :
    robotsurlsOf schema domain (pre ++ "llow: ".toList ++ path) = [schema ++ domain ++ path] ∧
    (∀ line : GoString, '\n' ∉ line → ¬ "llow: ".toList <:+: line →
      robotsurlsOf schema domain line = []) := by
  constructor
  · have hline : '\n' ∉ pre ++ "llow: ".toList ++ path := by
      simp only [List.mem_append, not_or]
      exact ⟨⟨hpre, by decide⟩, hpath⟩
    rw [robotsurlsOf_eq, stringsSplit_single _ _ hline]
    have h := afterLast_llow_append pre path ((afterLast_none_iff _ (by decide) _).2 hfree)
    simp only [List.filterMap_cons, List.filterMap_nil, textAfterLlow, h, Option.map_some']
  · intro line hline hno
    rw [robotsurlsOf_eq, stringsSplit_single _ _ hline]
    simp only [List.filterMap_cons, List.filterMap_nil, textAfterLlow,
      (afterLast_none_iff _ (by decide) _).2 hno, Option.map_none']

/-- The lines `disallow: /admin` and `Allow: /public` yield their entries. -/
theorem parseRobots_directive_case_sensitive_witness :
    robotsurlsOf "http://".toList "example.com".toList "disallow: /admin".toList =
      ["http://example.com/admin".toList] ∧
    robotsurlsOf "http://".toList "example.com".toList "Allow: /public".toList =
      ["http://example.com/public".toList] :=
  ⟨(parseRobots_directive_case_sensitive "http://".toList "example.com".toList "disa".toList
      "/admin".toList (by decide) (by decide) (by decide)).1,
    (parseRobots_directive_case_sensitive "http://".toList "example.com".toList "A".toList
      "/public".toList (by decide) (by decide) (by decide)).1⟩

/-- The claim C8 as stated fails: the body `DISALLOW: /admin\nALLOW: /public\n` yields no
entry, while `Disallow: /admin\nAllow: /public\n` yields two. -/
theorem parseRobots_upper_case_ignored :
    robotsurlsOf "http://".toList "example.com".toList
      "DISALLOW: /admin\nALLOW: /public\n".toList = [] ∧
    robotsurlsOf "http://".toList "example.com".toList
        "Disallow: /admin\nAllow: /public\n".toList =
      ["http://example.com/admin".toList, "http://example.com/public".toList] := by
  decide

/-! ## `LinkFinderRegex` -/

/-- A match of `LinkFinderRegex` starts with a quotation mark. -/
theorem linkFinder_needs_quote (c : Char) (t : GoString) (hc : isQuote c = false) :
    LinkFinderRegex.matchAt (c :: t) = none := by
  simp only [isQuote, Bool.or_eq_false_iff, decide_eq_false_iff_not] at hc
  simp [LinkFinderRegex, Regex.concat, Regex.matchAt, Regex.matchK, quoteRe, Atom.test, hc.1, hc.2]

/-- The first token is matched whole, whatever follows it. -/
theorem cdnToken_matchAt (rest : GoString) : LinkFinderRegex.matchAt (cdnToken ++ rest) = some rest := by
  rfl

/-- The second token is matched whole, whatever follows it. -/
theorem apiToken_matchAt (rest : GoString) : LinkFinderRegex.matchAt (apiToken ++ rest) = some rest := by
  rfl

/-- Skipping the matched characters resumes the scan right after them. -/
theorem findAllScan_skip (re : Regex) : ∀ (a b : GoString),
    findAllScan re (a ++ b) a.length = findAllScan re b 0 := by
  intro a
  induction a with
  | nil => intro b; simp
  | cons c a ih => intro b; simpa [findAllScan] using ih b

/-- A match at the start of the input is returned first, and the scan resumes after it. -/
theorem findAllScan_token (re : Regex) (c : Char) (u rest : GoString)
    (h : re.matchAt (c :: u ++ rest) = some rest) :
    findAllScan re (c :: u ++ rest) 0 = (c :: u) :: findAllScan re rest 0 := by
  rw [List.cons_append] at h ⊢
  rw [findAllScan, h]
  simp only
  have hlen : (c :: (u ++ rest)).length - rest.length = u.length + 1 := by
    simp only [List.length_cons, List.length_append]; omega
  rw [hlen]
  simp only [Nat.add_sub_cancel, findAllScan_skip, List.take_succ_cons, List.take_left']

/-- Text without quotation marks in front of the input adds no match. -/
theorem findAllScan_linkFinder_pre : ∀ (pre s : GoString), (∀ c ∈ pre, isQuote c = false) →
    findAllScan LinkFinderRegex (pre ++ s) 0 = findAllScan LinkFinderRegex s 0 := by
  intro pre
  induction pre with
  | nil => intro s _; rfl
  | cons c pre ih =>
    intro s h
    rw [List.cons_append, findAllScan, linkFinder_needs_quote c _ (h c (by simp))]
    exact ih s fun d hd => h d (by simp [hd])

/-- Text without quotation marks has no match. -/
theorem findAllScan_linkFinder_noQuote (s : GoString) (h : ∀ c ∈ s, isQuote c = false) :
    findAllScan LinkFinderRegex s 0 = [] := by
  have := findAllScan_linkFinder_pre s [] h
  simpa [findAllScan] using this

/-- A successful greedy repetition consumed characters that pass the test, within the
bounds, and the continuation accepted what was left. -/
theorem repK_sound (p : Char → Bool) : ∀ (s : GoString) (min : Nat) (max : Option Nat)
    (k : Cont) (r : GoString), repK p s min max k = some r →
    ∃ m rest, s = m ++ rest ∧ (∀ c ∈ m, p c = true) ∧ min ≤ m.length ∧
      (∀ n, max = some n → m.length ≤ n) ∧ k rest = some r := by
  intro s
  induction s with
  | nil =>
    intro min max k r h
    rw [repK] at h
    by_cases h0 : min = 0
    · rw [if_pos h0] at h
      exact ⟨[], [], rfl, by simp, by simp [h0], by simp, h⟩
    · rw [if_neg h0] at h; exact absurd h (by simp)
  | cons c t ih =>
    intro min max k r h
    rw [repK] at h
    have stop : (if min = 0 then k (c :: t) else none) = some r →
        ∃ m rest, c :: t = m ++ rest ∧ (∀ c ∈ m, p c = true) ∧ min ≤ m.length ∧
          (∀ n, max = some n → m.length ≤ n) ∧ k rest = some r := by
      intro h'
      by_cases h0 : min = 0
      · rw [if_pos h0] at h'
        exact ⟨[], c :: t, rfl, by simp, by simp [h0], by simp, h'⟩
      · rw [if_neg h0] at h'; exact absurd h' (by simp)
    by_cases hc : (p c && decide (max ≠ some 0)) = true
    · rw [if_pos hc] at h
      simp only [Bool.and_eq_true, decide_eq_true_eq] at hc
      cases hrec : repK p t (min - 1) (max.map (· - 1)) k with
      | none => rw [hrec] at h; exact stop h
      | some r2 =>
        rw [hrec] at h
        simp only [Option.some.injEq] at h
        subst h
        obtain ⟨m, rest, hs, hall, hmin, hmax, hk⟩ := ih _ _ _ _ hrec
        refine ⟨c :: m, rest, by simp [hs], ?_, ?_, ?_, hk⟩
        · intro d hd
          rcases List.mem_cons.1 hd with e | e
          · rw [e]; exact hc.1
          · exact hall d e
        · simp only [List.length_cons]; omega
        · intro n hn
          subst hn
          have hn0 : n ≠ 0 := fun e => hc.2 (by rw [e])
          have := hmax (n - 1) (by simp)
          simp only [List.length_cons]; omega
    · rw [if_neg hc] at h
      exact stop h

/-- A successful search consumed a text of the language of the pattern, and the continuation
accepted what was left. -/
theorem matchK_sound (re : Regex) : ∀ (s : GoString) (k : Cont) (r : GoString),
    re.matchK s k = some r → ∃ m rest, s = m ++ rest ∧ re.Matches m ∧ k rest = some r := by
  induction re with
  | empty =>
    intro s k r h
    exact ⟨[], s, rfl, .empty, h⟩
  | atom a =>
    intro s k r h
    cases s with
    | nil => simp [Regex.matchK] at h
    | cons c t =>
      simp only [Regex.matchK] at h
      by_cases hc : a.test c = true
      · rw [if_pos hc] at h
        exact ⟨[c], t, rfl, .atom a c hc, h⟩
      · rw [if_neg hc] at h; exact absurd h (by simp)
  | cat a b iha ihb =>
    intro s k r h
    simp only [Regex.matchK] at h
    obtain ⟨m1, rest1, hs1, hm1, hk1⟩ := iha _ _ _ h
    obtain ⟨m2, rest2, hs2, hm2, hk2⟩ := ihb _ _ _ hk1
    exact ⟨m1 ++ m2, rest2, by rw [hs1, hs2, List.append_assoc], .cat a b m1 m2 hm1 hm2, hk2⟩
  | alt a b iha ihb =>
    intro s k r h
    simp only [Regex.matchK] at h
    cases ha : a.matchK s k with
    | some r2 =>
      rw [ha] at h
      simp only [Option.some.injEq] at h
      subst h
      obtain ⟨m, rest, hs, hm, hk⟩ := iha _ _ _ ha
      exact ⟨m, rest, hs, .altLeft a b m hm, hk⟩
    | none =>
      rw [ha] at h
      obtain ⟨m, rest, hs, hm, hk⟩ := ihb _ _ _ h
      exact ⟨m, rest, hs, .altRight a b m hm, hk⟩
  | rep a min max =>
    intro s k r h
    simp only [Regex.matchK] at h
    obtain ⟨m, rest, hs, hall, hmin, hmax, hk⟩ := repK_sound _ _ _ _ _ _ h
    exact ⟨m, rest, hs, .rep a min max m hall hmin hmax, hk⟩

/-- The greedy repetition succeeds whenever some run of characters within the bounds is
followed by text that the continuation accepts. -/
theorem repK_complete (p : Char → Bool) : ∀ (m rest : GoString) (min : Nat) (max : Option Nat)
    (k : Cont), (∀ c ∈ m, p c = true) → min ≤ m.length → (∀ n, max = some n → m.length ≤ n) →
    (k rest).isSome = true → (repK p (m ++ rest) min max k).isSome = true := by
  intro m
  induction m with
  | nil =>
    intro rest min max k _ hmin _ hk
    have h0 : min = 0 := by simpa using hmin
    subst h0
    cases rest with
    | nil => simpa [repK] using hk
    | cons c t =>
      rw [List.nil_append, repK]
      by_cases hc : (p c && decide (max ≠ some 0)) = true
      · rw [if_pos hc]
        cases repK p t (0 - 1) (max.map (· - 1)) k with
        | none => simpa using hk
        | some r => rfl
      · rw [if_neg hc]; simpa using hk
  | cons c m ih =>
    intro rest min max k hall hmin hmax hk
    rw [List.cons_append, repK]
    have hpc : p c = true := hall c (by simp)
    have hmax0 : max ≠ some 0 := by
      intro e
      have := hmax 0 e
      simp at this
    rw [if_pos (by simp [hpc, hmax0])]
    have hrec := ih rest (min - 1) (max.map (· - 1)) k (fun d hd => hall d (by simp [hd]))
      (by simp only [List.length_cons] at hmin; omega)
      (by
        intro n hn
        cases max with
        | none => simp at hn
        | some n0 =>
          simp only [Option.map_some', Option.some.injEq] at hn
          have := hmax n0 rfl
          simp only [List.length_cons] at this
          omega)
      hk
    cases hr : repK p (m ++ rest) (min - 1) (max.map (· - 1)) k with
    | none => rw [hr] at hrec; exact absurd hrec (by simp)
    | some r => rfl

/-- The search succeeds whenever a text of the language of the pattern is followed by text
that the continuation accepts. -/
theorem matchK_complete (re : Regex) (m : GoString) (hm : re.Matches m) :
    ∀ (rest : GoString) (k : Cont), (k rest).isSome = true →
      (re.matchK (m ++ rest) k).isSome = true := by
  induction hm with
  | empty => intro rest k hk; simpa [Regex.matchK] using hk
  | atom a c hc => intro rest k hk; simpa [Regex.matchK, hc] using hk
  | cat a b m1 m2 _ _ iha ihb =>
    intro rest k hk
    simp only [Regex.matchK, List.append_assoc]
    exact iha _ _ (ihb rest k hk)
  | altLeft a b m _ iha =>
    intro rest k hk
    simp only [Regex.matchK]
    have := iha rest k hk
    cases h : a.matchK (m ++ rest) k with
    | none => rw [h] at this; exact absurd this (by simp)
    | some r => rfl
  | altRight a b m _ ihb =>
    intro rest k hk
    simp only [Regex.matchK]
    cases h : a.matchK (m ++ rest) k with
    | none => exact ihb rest k hk
    | some r => rfl
  | rep a min max m hall hmin hmax =>
    intro rest k hk
    simp only [Regex.matchK]
    exact repK_complete _ m rest min max k hall hmin hmax hk

/-- What `matchAt` consumes is in the language of the pattern. -/
theorem matchAt_sound (re : Regex) (s rest : GoString) (h : re.matchAt s = some rest) :
    ∃ m, s = m ++ rest ∧ re.Matches m := by
  obtain ⟨m, rest2, hs, hm, hk⟩ := matchK_sound re s some rest h
  simp only [Option.some.injEq] at hk
  subst hk
  exact ⟨m, hs, hm⟩

/-- A match starts at the start of the input exactly when a prefix of the input is in the
language of the pattern. -/
theorem matchAt_isSome_iff (re : Regex) (s : GoString) :
    (re.matchAt s).isSome = true ↔ ∃ m rest, s = m ++ rest ∧ re.Matches m := by
  constructor
  · intro h
    cases hr : re.matchAt s with
    | none => rw [hr] at h; exact absurd h (by simp)
    | some rest =>
      obtain ⟨m, hs, hm⟩ := matchAt_sound re s rest hr
      exact ⟨m, rest, hs, hm⟩
  · rintro ⟨m, rest, hs, hm⟩
    rw [hs]
    exact matchK_complete re m hm rest some rfl

/-- For a pattern that matches no empty text, what `matchAt` consumes is not empty. -/
theorem matchAt_nonempty (re : Regex) (hne : ¬ re.Matches []) (s rest : GoString)
    (h : re.matchAt s = some rest) : ∃ c u, s = c :: u ++ rest ∧ re.Matches (c :: u) := by
  obtain ⟨m, hs, hm⟩ := matchAt_sound re s rest h
  cases m with
  | nil => exact absurd hm hne
  | cons c u => exact ⟨c, u, hs, hm⟩

/-- A character at which no match starts extends the first gap. -/
theorem leftmostMatches_cons (re : Regex) (c : Char) (t : GoString) (ms : List GoString)
    (hc : re.matchAt (c :: t) = none) (h : LeftmostMatches re t ms) :
    LeftmostMatches re (c :: t) ms := by
  cases h with
  | done _ hall =>
    refine .done _ ?_
    intro a b hab
    cases a with
    | nil => rw [List.nil_append] at hab; rw [← hab]; exact hc
    | cons d a =>
      rw [List.cons_append] at hab
      exact hall a b (List.cons.inj hab).2
  | next gap m rest ms hm hgap hmatch hrest =>
    have := LeftmostMatches.next (c :: gap) m rest ms hm (by
      intro a b hab hb
      cases a with
      | nil => rw [List.nil_append] at hab; rw [← hab]; exact hc
      | cons d a =>
        rw [List.cons_append] at hab
        exact hgap a b (List.cons.inj hab).2 hb) hmatch hrest
    exact this

/-- For a pattern that matches no empty text, `FindAllString` returns the successive
leftmost matches. -/
theorem findAllString_leftmost (re : Regex) (hne : ¬ re.Matches []) :
    ∀ (n : Nat) (s : GoString), s.length ≤ n → LeftmostMatches re s (re.findAllString s) := by
  intro n
  induction n with
  | zero =>
    intro s hs
    have : s = [] := List.eq_nil_of_length_eq_zero (by omega)
    subst this
    refine .done _ ?_
    intro a b hab
    have hb : b = [] := (List.append_eq_nil.1 hab.symm).2
    subst hb
    cases h : re.matchAt [] with
    | none => rfl
    | some rest =>
      obtain ⟨c, u, hs2, _⟩ := matchAt_nonempty re hne _ _ h
      simp at hs2
  | succ n ih =>
    intro s hs
    cases s with
    | nil => exact ih [] (by simp)
    | cons c t =>
      unfold Regex.findAllString
      rw [findAllScan]
      cases h : re.matchAt (c :: t) with
      | none =>
        simp only
        exact leftmostMatches_cons re c t _ h (ih t (by simp only [List.length_cons] at hs; omega))
      | some rest =>
        obtain ⟨d, u, hs2, _⟩ := matchAt_nonempty re hne _ _ h
        have hd : d = c := by
          rw [List.cons_append] at hs2
          exact ((List.cons.inj hs2).1).symm
        subst hd
        have ht : t = u ++ rest := by
          rw [List.cons_append] at hs2
          exact (List.cons.inj hs2).2
        have hlen : (d :: t).length - rest.length = u.length + 1 := by
          rw [ht]; simp only [List.length_cons, List.length_append]; omega
        simp only [hlen, Nat.add_sub_cancel]
        have htake : List.take (u.length + 1) (d :: t) = d :: u := by
          rw [ht, List.take_succ_cons, List.take_left']
          rfl
        rw [htake, ht, findAllScan_skip]
        have hrest := ih rest (by
          have := congrArg List.length hs2
          simp only [List.length_cons, List.length_append] at this hs
          omega)
        have := LeftmostMatches.next [] (d :: u) rest _ (by simp) (by
          intro a b hab hb
          exact absurd (List.append_eq_nil.1 hab.symm).2 hb) (by rw [← hs2]; exact h) hrest
        simpa using this

/-- Each of the successive matches is in the language of the pattern and is a substring of
the text. -/
theorem leftmostMatches_mem (re : Regex) (s : GoString) (ms : List GoString)
    (h : LeftmostMatches re s ms) : ∀ x ∈ ms, re.Matches x ∧ x <:+: s := by
  induction h with
  | done _ _ => intro x hx; simp at hx
  | next gap m rest ms _ _ hmatch _ ih =>
    intro x hx
    rcases List.mem_cons.1 hx with e | e
    · subst e
      obtain ⟨m2, hs, hm⟩ := matchAt_sound re _ _ hmatch
      have : x = m2 := List.append_cancel_right hs
      subst this
      exact ⟨hm, ⟨gap, rest, by simp⟩⟩
    · obtain ⟨hm, a, b, hab⟩ := ih x e
      exact ⟨hm, ⟨gap ++ m ++ a, b, by simp [← hab]⟩⟩

/-- There is no match exactly when no substring of the text is in the language of the
pattern. -/
theorem leftmostMatches_nil_iff (re : Regex) (s : GoString) (ms : List GoString)
    (h : LeftmostMatches re s ms) :
    ms = [] ↔ ¬ ∃ a m b, s = a ++ (m ++ b) ∧ re.Matches m := by
  cases h with
  | done _ hall =>
    simp only [true_iff]
    rintro ⟨a, m, b, hs, hm⟩
    have h1 := hall a (m ++ b) hs
    have h2 := (matchAt_isSome_iff re (m ++ b)).2 ⟨m, b, rfl, hm⟩
    rw [h1] at h2
    exact absurd h2 (by simp)
  | next gap m rest ms _ _ hmatch _ =>
    simp only [reduceCtorEq, false_iff, not_not]
    obtain ⟨m2, hs, hm⟩ := matchAt_sound re _ _ hmatch
    have : m = m2 := List.append_cancel_right hs
    subst this
    exact ⟨gap, m, rest, rfl, hm⟩

/-- The pattern `LinkFinderRegex` matches no empty text. -/
theorem linkFinder_not_empty : ¬ LinkFinderRegex.Matches [] := by
  intro h
  have := (matchAt_isSome_iff LinkFinderRegex []).2 ⟨[], [], rfl, h⟩
  exact absurd this (by decide)

/-- C5 (amended): in a script text in which the quoted tokens
`"https://cdn.example.com/app.js"` and `'/api/v2/data.json'` stand after text without
quotation marks, `FindAllString` returns both tokens, then the matches of the text that
follows, and a token that occurs twice is returned twice. For every text `s`,
`FindAllString` returns the successive leftmost, non-overlapping matches of the pattern
as `main.go` writes it; each is a substring of `s` in the language of the pattern; the
result is empty exactly when no substring of `s` is in that language; and `linkfinder`
prints these matches in order. The last four equations show a match through each of
the four alternatives of the pattern. -/
theorem linkFinder_findAllString (pre mid post s : GoString) (plain : Bool)
    (hpre : ∀ c ∈ pre, isQuote c = false) (hmid : ∀ c ∈ mid, isQuote c = false) :
    LinkFinderRegex.findAllString (pre ++ cdnToken ++ mid ++ apiToken ++ post) =
      cdnToken :: apiToken :: LinkFinderRegex.findAllString post ∧
    LinkFinderRegex.findAllString (pre ++ apiToken ++ mid ++ apiToken ++ post) =
      apiToken :: apiToken :: LinkFinderRegex.findAllString post ∧
    LinkFinderRegex.findAllString pre = [] ∧
    LeftmostMatches LinkFinderRegex s (LinkFinderRegex.findAllString s) ∧
    (∀ x ∈ LinkFinderRegex.findAllString s, LinkFinderRegex.Matches x ∧ x <:+: s) ∧
    (LinkFinderRegex.findAllString s = [] ↔
      ¬ ∃ a m b, s = a ++ (m ++ b) ∧ LinkFinderRegex.Matches m) ∧
    (∀ t : GoString, (LinkFinderRegex.matchAt t).isSome = true ↔
      ∃ m rest, t = m ++ rest ∧ LinkFinderRegex.Matches m) ∧
    linkfinder plain (some { status := 200, body := some s }) =
      (LinkFinderRegex.findAllString s).map (fun link => Effect.print .linkfinder link plain) ∧
    LinkFinderRegex.findAllString "src=\"//cdn.example.com/x.js\"".toList =
      ["\"//cdn.example.com/x.js\"".toList] ∧
    LinkFinderRegex.findAllString "\"../up/x\" './rel'".toList =
      ["\"../up/x\"".toList, "'./rel'".toList] ∧
    LinkFinderRegex.findAllString "'a/b.action?x=1\n' 'c/d.html/e\n'".toList =
      ["'a/b.action?x=1\n'".toList, "'c/d.html/e\n'".toList] ∧
    LinkFinderRegex.findAllString
        ("'x.php' 'x.asp' 'x.aspx' 'x.jsp' 'x.json' 'x.action' ".toList ++
          "'x.html' 'x.js' 'x.txt' 'x.xml?v=1' 'x.gif'".toList) =
      ["'x.php'".toList, "'x.asp'".toList, "'x.aspx'".toList, "'x.jsp'".toList,
       "'x.json'".toList, "'x.action'".toList, "'x.html'".toList, "'x.js'".toList,
       "'x.txt'".toList, "'x.xml?v=1'".toList] := by
  have e1 : ∀ rest, findAllScan LinkFinderRegex (cdnToken ++ rest) 0 =
      cdnToken :: findAllScan LinkFinderRegex rest 0 := fun rest =>
    findAllScan_token LinkFinderRegex '"' "https://cdn.example.com/app.js\"".toList rest
      (cdnToken_matchAt rest)
  have e2 : ∀ rest, findAllScan LinkFinderRegex (apiToken ++ rest) 0 =
      apiToken :: findAllScan LinkFinderRegex rest 0 := fun rest =>
    findAllScan_token LinkFinderRegex '\'' "/api/v2/data.json'".toList rest
      (apiToken_matchAt rest)
  have hl := findAllString_leftmost LinkFinderRegex linkFinder_not_empty s.length s (Nat.le_refl _)
  refine ⟨?_, ?_, findAllScan_linkFinder_noQuote pre hpre, hl,
    leftmostMatches_mem LinkFinderRegex s _ hl, leftmostMatches_nil_iff LinkFinderRegex s _ hl,
    matchAt_isSome_iff LinkFinderRegex, ?_, by decide, by decide, by decide, by decide⟩
  · unfold Regex.findAllString
    simp only [List.append_assoc]
    rw [findAllScan_linkFinder_pre _ _ hpre, e1, findAllScan_linkFinder_pre _ _ hmid, e2]
  · unfold Regex.findAllString
    simp only [List.append_assoc]
    rw [findAllScan_linkFinder_pre _ _ hpre, e2, findAllScan_linkFinder_pre _ _ hmid, e2]
  · simp only [linkfinder, if_true]

/-- A script with the two tokens, and two lines of prose. -/
theorem linkFinder_findAllString_witness :
    LinkFinderRegex.findAllString
        "var a = \"https://cdn.example.com/app.js\"; fetch('/api/v2/data.json');".toList =
      [cdnToken, apiToken] ∧
    LinkFinderRegex.findAllString "Plain prose, no link in it.".toList = [] ∧
    LinkFinderRegex.findAllString "He said \"hello\", and it's fine.".toList = [] :=
  ⟨(linkFinder_findAllString "var a = ".toList "; fetch(".toList ");".toList [] true
      (by decide) (by decide)).1,
    (linkFinder_findAllString "Plain prose, no link in it.".toList [] [] [] true
      (by decide) (by decide)).2.2.1,
    by decide⟩

/-- The claim C5 as stated fails: the text
`'/a "https://cdn.example.com/app.js"; fetch('/api/v2/data.json');` contains both quoted
tokens, and `FindAllString` returns `'/a "` and the second token, not the first: the
match that starts at the first quotation mark ends with the one that opens the token. -/
theorem linkFinder_token_overlapped :
    stringsContains "'/a \"https://cdn.example.com/app.js\"; fetch('/api/v2/data.json');".toList
      cdnToken = true ∧
    stringsContains "'/a \"https://cdn.example.com/app.js\"; fetch('/api/v2/data.json');".toList
      apiToken = true ∧
    LinkFinderRegex.findAllString
        "'/a \"https://cdn.example.com/app.js\"; fetch('/api/v2/data.json');".toList =
      ["'/a \"".toList, apiToken] ∧
    cdnToken ∉ LinkFinderRegex.findAllString
      "'/a \"https://cdn.example.com/app.js\"; fetch('/api/v2/data.json');".toList := by
  decide

/-! ## `crawl`: the dedup maps -/

/-- A step that makes no call and leaves the maps alone is in order. -/
theorem stepOk_nil (reg : Registries) (eff : List Effect) :
    StepOk reg { reg := reg, calls := [], effects := eff } :=
  ⟨by simp [registryCalls], by simp [registryCalls], by simp [registryCalls]⟩

/-- The `a[href]` callback claims new, non-empty keys and records exactly these. -/
theorem onHref_ok (L : UrlLib) (cfg : Config) (domain : GoString) (reg : Registries)
    (attr urlString : GoString) : StepOk reg (onHref L cfg domain reg attr urlString) := by
  unfold onHref
  by_cases h1 : urlString ∈ reg.urls
  · rw [if_pos h1]; exact stepOk_nil _ _
  rw [if_neg h1]
  by_cases h2 : urlString = []
  · rw [if_pos h2]; exact stepOk_nil _ _
  rw [if_neg h2]
  cases hp : L.parse urlString with
  | none => exact stepOk_nil _ _
  | some urlObj =>
    dsimp only
    constructor
    · split_ifs <;> simp_all [registryCalls]
    · intro t k
      split_ifs <;> cases t <;> simp_all [registryCalls, Registries.ofTag]
    · intro t k
      split_ifs <;> cases t <;>
        simp_all [registryCalls, Registries.ofTag, List.mem_insert_iff] <;> tauto

/-- The `script[src]` callback claims a new, non-empty key and records exactly that. -/
theorem onScript_ok (L : UrlLib) (cfg : Config) (domain : GoString) (reg : Registries)
    (jsfile : GoString) (resp : Option Response) :
    StepOk reg (onScript L cfg domain reg jsfile resp) := by
  unfold onScript
  split_ifs with h1 h2
  · exact stepOk_nil _ _
  · exact stepOk_nil _ _
  · dsimp only
    constructor
    · simp [registryCalls]
    · intro t k
      cases t <;> simp_all [registryCalls, Registries.ofTag]
    · intro t k
      cases t <;> simp_all [registryCalls, Registries.ofTag, List.mem_insert_iff]
      all_goals tauto

/-- The `form[action]` callback claims a new, non-empty key and records exactly that. -/
theorem onForm_ok (L : UrlLib) (cfg : Config) (domain : GoString) (reg : Registries)
    (action : GoString) : StepOk reg (onForm L cfg domain reg action) := by
  unfold onForm
  split_ifs with h1 h2
  · exact stepOk_nil _ _
  · exact stepOk_nil _ _
  · constructor
    · simp [registryCalls]
    · intro t k
      cases t <;> simp_all [registryCalls, Registries.ofTag]
    · intro t k
      cases t <;> simp_all [registryCalls, Registries.ofTag, List.mem_insert_iff]
      all_goals tauto

/-- The loop over the archive URLs claims a new, non-empty host and records exactly that. -/
theorem onWayback_ok (L : UrlLib) (cfg : Config) (domain : GoString) (reg : Registries)
    (waybackurl : GoString) : StepOk reg (onWayback L cfg domain reg waybackurl) := by
  unfold onWayback
  by_cases h1 : (!cfg.usewayback) = true
  · rw [if_pos h1]; exact stepOk_nil _ _
  rw [if_neg h1]
  dsimp only
  cases hp : L.parse waybackurl with
  | none =>
    dsimp only
    constructor
    · split_ifs <;> simp [registryCalls]
    · intro t k
      split_ifs <;> simp [registryCalls]
    · intro t k
      split_ifs <;> simp [registryCalls]
  | some urlObj =>
    dsimp only
    constructor
    · split_ifs <;> simp_all [registryCalls]
    · intro t k
      split_ifs <;> cases t <;> simp_all [registryCalls, Registries.ofTag]
    · intro t k
      split_ifs <;> cases t <;>
        simp_all [registryCalls, Registries.ofTag, List.mem_insert_iff] <;> tauto

/-- Every event claims new, non-empty keys and records exactly these. -/
theorem handleEvent_ok (L : UrlLib) (cfg : Config) (domain : GoString) (reg : Registries)
    (ev : Event) : StepOk reg (handleEvent L cfg domain reg ev) := by
  cases ev with
  | href attr urlString => exact onHref_ok L cfg domain reg attr urlString
  | script jsfile resp => exact onScript_ok L cfg domain reg jsfile resp
  | form action => exact onForm_ok L cfg domain reg action
  | wayback waybackurl => exact onWayback_ok L cfg domain reg waybackurl

/-- A sequence of events claims distinct, new, non-empty keys and records exactly these. -/
theorem runEvents_ok (L : UrlLib) (cfg : Config) (domain : GoString) (evs : List Event) :
    ∀ reg : Registries, StepOk reg (runEvents L cfg domain reg evs) := by
  induction evs with
  | nil => intro reg; exact stepOk_nil _ _
  | cons ev evs ih =>
    intro reg
    have h1 := handleEvent_ok L cfg domain reg ev
    have h2 := ih (handleEvent L cfg domain reg ev).reg
    simp only [runEvents]
    constructor
    · simp only [registryCalls, List.filter_append] at *
      rw [List.nodup_append]
      refine ⟨h1.nodup, h2.nodup, ?_⟩
      intro c hc1 hc2
      obtain ⟨t, k⟩ := c
      exact (h2.fresh t k hc2).1 ((h1.grows t k).2 (Or.inr hc1))
    · intro t k hk
      simp only [registryCalls, List.filter_append, List.mem_append] at *
      rcases hk with hk | hk
      · exact h1.fresh t k hk
      · refine ⟨fun hreg => (h2.fresh t k hk).1 ((h1.grows t k).2 (Or.inl hreg)), (h2.fresh t k hk).2⟩
    · intro t k
      simp only [registryCalls, List.filter_append, List.mem_append] at *
      rw [h2.grows t k, h1.grows t k]
      tauto

/-- A call with a tag outside the four categories prints no line of the four categories. -/
theorem printIfInScope_filter_other (L : UrlLib) (scope : GoString) (tag : Tag)
    (schema domain msg : GoString) (plain : Bool) (outdir : GoString)
    (ht : (tag = Tag.url || tag = Tag.subdomain || tag = Tag.javascript || tag = Tag.form) = false) :
    (printIfInScope L scope tag schema domain msg plain outdir).2.filter isRegistryPrint = [] := by
  rcases printIfInScope_snd L scope tag schema domain msg plain outdir with h | ⟨text, h⟩
  · rw [h]; rfl
  · rw [h]
    by_cases ho : outdir ≠ []
    · simp [isRegistryPrint, ht, ho]
    · simp [isRegistryPrint, ht, ho]

/-- The lines printed by `linkfinder` are not in the four categories. -/
theorem linkfinder_filter (plain : Bool) (resp : Option Response) :
    (linkfinder plain resp).filter isRegistryPrint = [] := by
  unfold linkfinder
  cases resp with
  | none => rfl
  | some r =>
    dsimp only
    split_ifs
    · cases r.body with
      | none => rfl
      | some res => simp [List.filter_eq_nil_iff, isRegistryPrint]
    · rfl

/-- The lines that an event prints in the four categories are those of its calls of
`printIfInScope`. -/
theorem handleEvent_output (L : UrlLib) (cfg : Config) (domain : GoString) (reg : Registries)
    (ev : Event) : OutputOk L cfg domain (handleEvent L cfg domain reg ev) := by
  unfold OutputOk
  cases ev with
  | href attr urlString =>
    simp only [handleEvent, onHref]
    by_cases h1 : urlString ∈ reg.urls
    · rw [if_pos h1]; rfl
    rw [if_neg h1]
    by_cases h2 : urlString = []
    · rw [if_pos h2]; rfl
    rw [if_neg h2]
    cases L.parse urlString with
    | none => rfl
    | some urlObj =>
      dsimp only
      split_ifs <;> simp [registryCalls, isRegistryPrint, List.filter_append]
  | script jsfile resp =>
    simp only [handleEvent, onScript]
    split_ifs <;> simp [registryCalls, isRegistryPrint, List.filter_append, linkfinder_filter]
  | form action =>
    simp only [handleEvent, onForm]
    split_ifs <;> simp [registryCalls, isRegistryPrint, List.filter_append]
  | wayback waybackurl =>
    simp only [handleEvent, onWayback]
    by_cases h1 : (!cfg.usewayback) = true
    · rw [if_pos h1]; rfl
    rw [if_neg h1]
    have hw := printIfInScope_filter_other L cfg.scope Tag.wayback cfg.schema domain waybackurl
      cfg.plain cfg.outdir (by decide)
    cases L.parse waybackurl with
    | none =>
      split_ifs <;> simp [registryCalls, isRegistryPrint, List.filter_append, hw]
    | some urlObj =>
      dsimp only
      split_ifs <;> simp [registryCalls, isRegistryPrint, List.filter_append, hw]

/-- The lines that a sequence of events prints in the four categories are those of its calls
of `printIfInScope`. -/
theorem runEvents_output (L : UrlLib) (cfg : Config) (domain : GoString) (evs : List Event) :
    ∀ reg : Registries, OutputOk L cfg domain (runEvents L cfg domain reg evs) := by
  induction evs with
  | nil => intro reg; rfl
  | cons ev evs ih =>
    intro reg
    have h1 := handleEvent_output L cfg domain reg ev
    have h2 := ih (handleEvent L cfg domain reg ev).reg
    unfold OutputOk at *
    simp only [runEvents, registryCalls, List.filter_append, List.flatMap_append] at *
    rw [h1, h2]

/-- Running a sequence of events is running its first part, then the rest from the maps so
reached. -/
theorem runEvents_append (L : UrlLib) (cfg : Config) (domain : GoString) (pre post : List Event) :
    ∀ reg : Registries,
      runEvents L cfg domain reg (pre ++ post) =
        { reg := (runEvents L cfg domain (runEvents L cfg domain reg pre).reg post).reg,
          calls := (runEvents L cfg domain reg pre).calls ++
            (runEvents L cfg domain (runEvents L cfg domain reg pre).reg post).calls,
          effects := (runEvents L cfg domain reg pre).effects ++
            (runEvents L cfg domain (runEvents L cfg domain reg pre).reg post).effects } := by
  induction pre with
  | nil => intro reg; simp [runEvents]
  | cons ev pre ih =>
    intro reg
    rw [List.cons_append]
    simp only [runEvents]
    rw [ih]
    simp only [List.append_assoc]

/-- An event makes at most one call in each category. -/
theorem handleEvent_one_call_per_tag (L : UrlLib) (cfg : Config) (domain : GoString)
    (reg : Registries) (ev : Event) (t : Tag) (k k2 : GoString)
    (h1 : (t, k) ∈ registryCalls (handleEvent L cfg domain reg ev).calls)
    (h2 : (t, k2) ∈ registryCalls (handleEvent L cfg domain reg ev).calls) : k = k2 := by
  cases ev with
  | href attr urlString =>
    simp only [handleEvent, onHref] at h1 h2
    by_cases c1 : urlString ∈ reg.urls
    · rw [if_pos c1] at h1; simp [registryCalls] at h1
    rw [if_neg c1] at h1 h2
    by_cases c2 : urlString = []
    · rw [if_pos c2] at h1; simp [registryCalls] at h1
    rw [if_neg c2] at h1 h2
    cases hp : L.parse urlString with
    | none => rw [hp] at h1; simp [registryCalls] at h1
    | some urlObj =>
      rw [hp] at h1 h2
      dsimp only at h1 h2
      split_ifs at h1 h2 <;> cases t <;> simp_all [registryCalls]
  | script jsfile resp =>
    simp only [handleEvent, onScript] at h1 h2
    split_ifs at h1 h2 <;> cases t <;> simp_all [registryCalls]
  | form action =>
    simp only [handleEvent, onForm] at h1 h2
    split_ifs at h1 h2 <;> cases t <;> simp_all [registryCalls]
  | wayback waybackurl =>
    simp only [handleEvent, onWayback] at h1 h2
    by_cases c1 : (!cfg.usewayback) = true
    · rw [if_pos c1] at h1; simp [registryCalls] at h1
    rw [if_neg c1] at h1 h2
    cases hp : L.parse waybackurl with
    | none =>
      rw [hp] at h1 h2
      split_ifs at h1 h2 <;> cases t <;> simp_all [registryCalls]
    | some urlObj =>
      rw [hp] at h1 h2
      dsimp only at h1 h2
      split_ifs at h1 h2 <;> cases t <;> simp_all [registryCalls]

/-- A call kept by `registryCalls` has one of the four tags. -/
theorem registryCalls_tag (calls : List (Tag × GoString)) (t : Tag) (k : GoString)
    (h : (t, k) ∈ registryCalls calls) :
    (t = Tag.url || t = Tag.subdomain || t = Tag.javascript || t = Tag.form) = true := by
  unfold registryCalls at h
  exact (List.mem_filter.1 h).2

/-- The maps are empty when `crawl` creates them. -/
theorem ofTag_empty (t : Tag) : Registries.empty.ofTag t = [] := by
  cases t <;> rfl

/-- A first-claim-wins set depends on the claimed discoveries only through membership. -/
theorem firstClaims_congr : ∀ (ds s1 s2 : List (Tag × GoString)), (∀ d, d ∈ s1 ↔ d ∈ s2) →
    firstClaims s1 ds = firstClaims s2 ds := by
  intro ds
  induction ds with
  | nil => intro _ _ _; rfl
  | cons d ds ih =>
    intro s1 s2 h
    by_cases hd : d ∈ s1
    · rw [firstClaims, firstClaims, if_pos hd, if_pos ((h d).1 hd)]
      exact ih s1 s2 h
    · rw [firstClaims, firstClaims, if_neg hd, if_neg (fun e => hd ((h d).2 e))]
      rw [ih (d :: s1) (d :: s2) (fun x => by simp [h x])]

/-- After a step, the maps agree with the discoveries claimed before together with its
calls. -/
theorem seenOk_step (seen : List (Tag × GoString)) (reg : Registries) (s : Step)
    (hseen : SeenOk seen reg) (hok : StepOk reg s) :
    SeenOk (registryCalls s.calls ++ seen) s.reg := by
  intro t k
  rw [List.mem_append, hok.grows t k, hseen t k]
  tauto

/-- An event that claims a URL leaves the host of that URL in the map `subdomains`, when
subdomains are included. -/
theorem handleEvent_url_call (L : UrlLib) (cfg : Config) (domain : GoString)
    (reg : Registries) (ev : Event) (u : GoString) (o : URL)
    (hc : (Tag.url, u) ∈ registryCalls (handleEvent L cfg domain reg ev).calls)
    (ho : L.parse u = some o) (hs : (cfg.includeSubs || cfg.all) = true) (hne : o.host ≠ []) :
    o.host ∈ (handleEvent L cfg domain reg ev).reg.subdomains := by
  cases ev with
  | href attr urlString =>
    simp only [handleEvent, onHref] at hc ⊢
    by_cases c1 : urlString ∈ reg.urls
    · rw [if_pos c1] at hc; simp [registryCalls] at hc
    rw [if_neg c1] at hc ⊢
    by_cases c2 : urlString = []
    · rw [if_pos c2] at hc; simp [registryCalls] at hc
    rw [if_neg c2] at hc ⊢
    cases hp : L.parse urlString with
    | none => rw [hp] at hc; simp [registryCalls] at hc
    | some urlObj =>
      rw [hp] at hc
      dsimp only at hc ⊢
      by_cases cA : (cfg.includeURLs || cfg.all) = true
      · rw [if_pos cA] at hc ⊢
        dsimp only at hc ⊢
        have hu : u = urlString := by
          by_cases cB : ((cfg.includeSubs || cfg.all) && !decide (urlObj.host ∈ reg.subdomains) &&
              decide (urlObj.host ≠ [])) = true
          · rw [if_pos cB] at hc; simpa [registryCalls] using hc
          · rw [if_neg cB] at hc; simpa [registryCalls] using hc
        subst hu
        rw [hp] at ho
        simp only [Option.some.injEq] at ho
        subst ho
        by_cases cB : ((cfg.includeSubs || cfg.all) && !decide (urlObj.host ∈ reg.subdomains) &&
            decide (urlObj.host ≠ [])) = true
        · rw [if_pos cB]; simp [List.mem_insert_iff]
        · rw [if_neg cB]
          simp only [hs, Bool.true_and, Bool.and_eq_true, Bool.not_eq_true', decide_eq_false_iff_not,
            decide_eq_true_eq, not_and, not_not] at cB
          by_contra hmem
          exact hne (cB hmem)
      · rw [if_neg cA] at hc
        dsimp only at hc
        by_cases cB : ((cfg.includeSubs || cfg.all) && !decide (urlObj.host ∈ reg.subdomains) &&
            decide (urlObj.host ≠ [])) = true
        · rw [if_pos cB] at hc; simp [registryCalls] at hc
        · rw [if_neg cB] at hc; simp [registryCalls] at hc
  | script jsfile resp =>
    simp only [handleEvent, onScript] at hc
    split_ifs at hc <;> simp [registryCalls] at hc
  | form action =>
    simp only [handleEvent, onForm] at hc
    split_ifs at hc <;> simp [registryCalls] at hc
  | wayback waybackurl =>
    simp only [handleEvent, onWayback] at hc
    by_cases c1 : (!cfg.usewayback) = true
    · rw [if_pos c1] at hc; simp [registryCalls] at hc
    rw [if_neg c1] at hc
    cases hp : L.parse waybackurl with
    | none =>
      rw [hp] at hc
      split_ifs at hc <;> simp [registryCalls] at hc
    | some urlObj =>
      rw [hp] at hc
      dsimp only at hc
      split_ifs at hc <;> simp [registryCalls] at hc

/-- Every event keeps the hosts of the recorded URLs recorded. -/
theorem handleEvent_urlsOk (L : UrlLib) (cfg : Config) (domain : GoString) (reg : Registries)
    (ev : Event) (h : UrlsOk L cfg reg) : UrlsOk L cfg (handleEvent L cfg domain reg ev).reg := by
  have hok := handleEvent_ok L cfg domain reg ev
  intro u hu o ho hs hne
  have hu2 := (hok.grows Tag.url u).1 hu
  rcases hu2 with hu2 | hu2
  · exact (hok.grows Tag.subdomain o.host).2 (Or.inl (h u hu2 o ho hs hne))
  · exact handleEvent_url_call L cfg domain reg ev u o hu2 ho hs hne

/-- Discoveries that are all claimed already are dropped. -/
theorem firstClaims_mem (seen rest : List (Tag × GoString)) :
    ∀ ds : List (Tag × GoString), (∀ d ∈ ds, d ∈ seen) →
      firstClaims seen (ds ++ rest) = firstClaims seen rest := by
  intro ds
  induction ds with
  | nil => intro _; rfl
  | cons d ds ih =>
    intro h
    rw [List.cons_append, firstClaims, if_pos (h d (by simp))]
    exact ih fun x hx => h x (by simp [hx])

/-- One optional discovery is kept exactly when it is present and not claimed yet. -/
theorem firstClaims_one (seen rest : List (Tag × GoString)) (d : Tag × GoString) (c : Bool) :
    firstClaims seen ((if c = true then [d] else []) ++ rest) =
      (if c = true ∧ d ∉ seen then [d] else []) ++
        firstClaims ((if c = true ∧ d ∉ seen then [d] else []) ++ seen) rest := by
  cases c with
  | false => simp
  | true =>
    by_cases hd : d ∈ seen
    · simp [firstClaims, hd]
    · simp [firstClaims, hd]

/-- The calls of the `a[href]` callback for a new URL that parses: the URL, then its host
when that is new. -/
theorem onHref_calls (L : UrlLib) (cfg : Config) (domain : GoString) (reg : Registries)
    (attr urlString : GoString) (urlObj : URL) (c1 : urlString ∉ reg.urls)
    (c2 : urlString ≠ []) (hp : L.parse urlString = some urlObj) :
    registryCalls (onHref L cfg domain reg attr urlString).calls =
      (if (cfg.includeURLs || cfg.all) = true then [(Tag.url, urlString)] else []) ++
        (if ((cfg.includeSubs || cfg.all) && decide (urlObj.host ≠ [])) = true ∧
            urlObj.host ∉ reg.subdomains then [(Tag.subdomain, urlObj.host)] else []) := by
  unfold onHref
  rw [if_neg c1, if_neg c2, hp]
  dsimp only
  by_cases cA : (cfg.includeURLs || cfg.all) = true
  · rw [if_pos cA, if_pos cA]
    dsimp only
    by_cases cS : (cfg.includeSubs || cfg.all) = true
    · by_cases cH : urlObj.host ∈ reg.subdomains
      · simp [cS, cH, registryCalls]
      · by_cases cE : urlObj.host = []
        · simp [cS, cH, cE, registryCalls]
        · simp [cS, cH, cE, registryCalls]
    · simp [cS, registryCalls]
  · rw [if_neg cA, if_neg cA]
    dsimp only
    by_cases cS : (cfg.includeSubs || cfg.all) = true
    · by_cases cH : urlObj.host ∈ reg.subdomains
      · simp [cS, cH, registryCalls]
      · by_cases cE : urlObj.host = []
        · simp [cS, cH, cE, registryCalls]
        · simp [cS, cH, cE, registryCalls]
    · simp [cS, registryCalls]

/-- The `a[href]` callback passes on the discoveries of its event that are not claimed yet. -/
theorem onHref_firstClaims (L : UrlLib) (cfg : Config) (domain : GoString) (reg : Registries)
    (attr urlString : GoString) (seen rest : List (Tag × GoString))
    (hseen : SeenOk seen reg) (hurls : UrlsOk L cfg reg) :
    firstClaims seen (Event.discoveries L cfg domain (.href attr urlString) ++ rest) =
      registryCalls (onHref L cfg domain reg attr urlString).calls ++
        firstClaims (registryCalls (onHref L cfg domain reg attr urlString).calls ++ seen) rest := by
  have hU : ∀ k, (Tag.url, k) ∈ seen ↔ k ∈ reg.urls := fun k => hseen Tag.url k
  have hS : ∀ k, (Tag.subdomain, k) ∈ seen ↔ k ∈ reg.subdomains := fun k => hseen Tag.subdomain k
  by_cases c1 : urlString ∈ reg.urls
  · have hcalls : (onHref L cfg domain reg attr urlString).calls = [] := by
      unfold onHref; rw [if_pos c1]
    rw [hcalls]
    simp only [registryCalls, List.filter_nil, List.nil_append]
    apply firstClaims_mem
    intro d hd
    simp only [Event.discoveries] at hd
    by_cases c2 : urlString = []
    · rw [if_pos c2] at hd; simp at hd
    rw [if_neg c2] at hd
    cases hp : L.parse urlString with
    | none => rw [hp] at hd; simp at hd
    | some urlObj =>
      rw [hp] at hd
      simp only [List.mem_append] at hd
      rcases hd with hd | hd
      · split_ifs at hd
        · simp only [List.mem_singleton] at hd
          subst hd
          exact (hU _).2 c1
        · simp at hd
      · split_ifs at hd with hB
        · simp only [List.mem_singleton] at hd
          subst hd
          simp only [Bool.and_eq_true, decide_eq_true_eq] at hB
          exact (hS _).2 (hurls urlString c1 urlObj hp hB.1 hB.2)
        · simp at hd
  by_cases c2 : urlString = []
  · have hcalls : (onHref L cfg domain reg attr urlString).calls = [] := by
      unfold onHref; rw [if_neg c1, if_pos c2]
    rw [hcalls]
    simp [registryCalls, Event.discoveries, c2]
  cases hp : L.parse urlString with
  | none =>
    have hcalls : (onHref L cfg domain reg attr urlString).calls = [] := by
      unfold onHref; rw [if_neg c1, if_neg c2, hp]
    rw [hcalls]
    simp [registryCalls, Event.discoveries, c2, hp]
  | some urlObj =>
    rw [onHref_calls L cfg domain reg attr urlString urlObj c1 c2 hp]
    simp only [Event.discoveries, if_neg c2, hp, List.append_assoc]
    rw [firstClaims_one, firstClaims_one]
    have h1 : (Tag.url, urlString) ∉ seen := fun e => c1 ((hU _).1 e)
    by_cases cA : (cfg.includeURLs || cfg.all) = true
    · by_cases cB : ((cfg.includeSubs || cfg.all) && decide (urlObj.host ≠ [])) = true
      · by_cases cH : urlObj.host ∈ reg.subdomains
        · have h2 : (Tag.subdomain, urlObj.host) ∈ seen := (hS _).2 cH
          simp [cA, cB, cH, h1, h2]
        · have h2 : (Tag.subdomain, urlObj.host) ∉ seen := fun e => cH ((hS _).1 e)
          simp only [cA, cB, cH, h1, h2, true_and, not_false_eq_true, and_self, if_true,
            List.cons_append, List.nil_append, List.mem_cons, Prod.mk.injEq, false_and, or_self,
            not_true_eq_false, and_false, if_false, List.append_nil, reduceCtorEq]
          congr 2
          apply firstClaims_congr
          intro d
          simp only [List.mem_cons]
          tauto
      · have cB2 : ¬((cfg.includeSubs = true ∨ cfg.all = true) ∧ ¬urlObj.host = []) := by
          simpa using cB
        simp [cA, cB2, h1]
    · by_cases cB : ((cfg.includeSubs || cfg.all) && decide (urlObj.host ≠ [])) = true
      · by_cases cH : urlObj.host ∈ reg.subdomains
        · have h2 : (Tag.subdomain, urlObj.host) ∈ seen := (hS _).2 cH
          simp [cA, cB, cH, h2]
        · have h2 : (Tag.subdomain, urlObj.host) ∉ seen := fun e => cH ((hS _).1 e)
          simp [cA, cB, cH, h2]
      · have cB2 : ¬((cfg.includeSubs = true ∨ cfg.all = true) ∧ ¬urlObj.host = []) := by
          simpa using cB
        simp [cA, cB2]

/-- Every event passes on the discoveries that are not claimed yet, and only these. -/
theorem handleEvent_firstClaims (L : UrlLib) (cfg : Config) (domain : GoString)
    (reg : Registries) (ev : Event) (seen rest : List (Tag × GoString))
    (hseen : SeenOk seen reg) (hurls : UrlsOk L cfg reg) :
    firstClaims seen (Event.discoveries L cfg domain ev ++ rest) =
      registryCalls (handleEvent L cfg domain reg ev).calls ++
        firstClaims (registryCalls (handleEvent L cfg domain reg ev).calls ++ seen) rest := by
  cases ev with
  | href attr urlString => exact onHref_firstClaims L cfg domain reg attr urlString seen rest hseen hurls
  | script jsfile resp =>
    have hJ : (Tag.javascript, jsfile) ∈ seen ↔ jsfile ∈ reg.jsfiles := hseen Tag.javascript jsfile
    simp only [handleEvent, onScript, Event.discoveries]
    by_cases cA : (cfg.includeJS || cfg.all) = true
    · by_cases cE : jsfile = []
      · simp [cA, cE, registryCalls]
      · by_cases cM : jsfile ∈ reg.jsfiles
        · simp [cA, cE, cM, registryCalls, firstClaims, hJ.2 cM]
        · have h2 : (Tag.javascript, jsfile) ∉ seen := fun e => cM (hJ.1 e)
          simp [cA, cE, cM, registryCalls, firstClaims, h2]
    · have cA2 : ¬(cfg.includeJS = true ∨ cfg.all = true) := by simpa using cA
      have cA3 : cfg.includeJS = false ∧ cfg.all = false := by simpa using cA
      simp [cA2, cA3, registryCalls]
  | form action =>
    have hF : (Tag.form, action) ∈ seen ↔ action ∈ reg.forms := hseen Tag.form action
    simp only [handleEvent, onForm, Event.discoveries]
    by_cases cA : (cfg.includeForms || cfg.all) = true
    · by_cases cE : action = []
      · simp [cA, cE, registryCalls]
      · by_cases cM : action ∈ reg.forms
        · simp [cA, cE, cM, registryCalls, firstClaims, hF.2 cM]
        · have h2 : (Tag.form, action) ∉ seen := fun e => cM (hF.1 e)
          simp [cA, cE, cM, registryCalls, firstClaims, h2]
    · have cA2 : ¬(cfg.includeForms = true ∨ cfg.all = true) := by simpa using cA
      have cA3 : cfg.includeForms = false ∧ cfg.all = false := by simpa using cA
      simp [cA2, cA3, registryCalls]
  | wayback waybackurl =>
    simp only [handleEvent, onWayback, Event.discoveries]
    by_cases c1 : cfg.usewayback = true
    · cases hp : L.parse waybackurl with
      | none =>
        by_cases cW : (cfg.includeWayback || cfg.all) = true
        · simp [c1, cW, registryCalls]
        · have cW2 : ¬(cfg.includeWayback = true ∨ cfg.all = true) := by simpa using cW
          simp [c1, cW2, registryCalls]
      | some urlObj =>
        have hS : (Tag.subdomain, urlObj.host) ∈ seen ↔ urlObj.host ∈ reg.subdomains :=
          hseen Tag.subdomain urlObj.host
        by_cases cB : ((cfg.includeSubs = true ∨ cfg.all = true) ∧ ¬urlObj.host = []) ∧
            stringsContains urlObj.host domain = true
        · by_cases cM : urlObj.host ∈ reg.subdomains
          · by_cases cW : (cfg.includeWayback || cfg.all) = true
            · simp [c1, cW, cB, cM, registryCalls, firstClaims, hS.2 cM]
            · have cW2 : ¬(cfg.includeWayback = true ∨ cfg.all = true) := by simpa using cW
              simp [c1, cW2, cB, cM, registryCalls, firstClaims, hS.2 cM]
          · have h2 : (Tag.subdomain, urlObj.host) ∉ seen := fun e => cM (hS.1 e)
            by_cases cW : (cfg.includeWayback || cfg.all) = true
            · simp [c1, cW, cB, cM, registryCalls, firstClaims, h2]
            · have cW2 : ¬(cfg.includeWayback = true ∨ cfg.all = true) := by simpa using cW
              simp [c1, cW2, cB, cM, registryCalls, firstClaims, h2]
        · have cB3 : ¬((((cfg.includeSubs = true ∨ cfg.all = true) ∧
              urlObj.host ∉ reg.subdomains) ∧ ¬urlObj.host = []) ∧
              stringsContains urlObj.host domain = true) :=
            fun h => cB ⟨⟨h.1.1.1, h.1.2⟩, h.2⟩
          by_cases cW : (cfg.includeWayback || cfg.all) = true
          · simp [c1, cW, cB, cB3, registryCalls]
          · have cW2 : ¬(cfg.includeWayback = true ∨ cfg.all = true) := by simpa using cW
            simp [c1, cW2, cB, cB3, registryCalls]
    · simp [c1, registryCalls]

/-- A sequence of events passes on its discoveries filtered by a first-claim-wins set. -/
theorem runEvents_firstClaims (L : UrlLib) (cfg : Config) (domain : GoString)
    (evs : List Event) : ∀ (reg : Registries) (seen : List (Tag × GoString)),
      SeenOk seen reg → UrlsOk L cfg reg →
      registryCalls (runEvents L cfg domain reg evs).calls =
        firstClaims seen (evs.flatMap (Event.discoveries L cfg domain)) := by
  induction evs with
  | nil => intro reg seen _ _; rfl
  | cons ev evs ih =>
    intro reg seen hseen hurls
    simp only [runEvents, List.flatMap_cons]
    rw [handleEvent_firstClaims L cfg domain reg ev seen _ hseen hurls]
    rw [← ih (handleEvent L cfg domain reg ev).reg _
      (seenOk_step seen reg _ hseen (handleEvent_ok L cfg domain reg ev))
      (handleEvent_urlsOk L cfg domain reg ev hurls)]
    simp [registryCalls, List.filter_append]

/-- C3: for the events of a job processed one at a time from the empty maps that
`crawl` creates, the calls of
`printIfInScope` in the four categories are the discoveries of the events filtered by a
first-claim-wins set: a discovery is passed on when no earlier discovery had its category
and key, and only then. So no category and key is passed on twice, every key passed on
is non-empty, the maps hold exactly the keys passed on, the output in the four
categories is what `printIfInScope` printed for these calls, and an event that comes
after a key was claimed makes no call for it. -/
theorem dedup_first_claim_wins (L : UrlLib) (cfg : Config) (domain : GoString)
    (pre post : List Event) :
    (registryCalls (runEvents L cfg domain Registries.empty (pre ++ post)).calls =
      firstClaims [] ((pre ++ post).flatMap (Event.discoveries L cfg domain))) ∧
    (registryCalls (runEvents L cfg domain Registries.empty (pre ++ post)).calls).Nodup ∧
    (∀ t k, (t, k) ∈ registryCalls (runEvents L cfg domain Registries.empty (pre ++ post)).calls →
      k ≠ []) ∧
    (∀ t k, k ∈ (runEvents L cfg domain Registries.empty (pre ++ post)).reg.ofTag t ↔
      (t, k) ∈ registryCalls (runEvents L cfg domain Registries.empty (pre ++ post)).calls) ∧
    ((runEvents L cfg domain Registries.empty (pre ++ post)).effects.filter isRegistryPrint =
      (registryCalls (runEvents L cfg domain Registries.empty (pre ++ post)).calls).flatMap fun c =>
        (printIfInScope L cfg.scope c.1 cfg.schema domain c.2 cfg.plain cfg.outdir).2.filter
          isRegistryPrint) ∧
    ((runEvents L cfg domain Registries.empty (pre ++ post)).calls =
      (runEvents L cfg domain Registries.empty pre).calls ++
        (runEvents L cfg domain (runEvents L cfg domain Registries.empty pre).reg post).calls) ∧
    (∀ t k, (t, k) ∈ registryCalls (runEvents L cfg domain Registries.empty pre).calls →
      (t, k) ∉ registryCalls
        (runEvents L cfg domain (runEvents L cfg domain Registries.empty pre).reg post).calls) := by
  have hall := runEvents_ok L cfg domain (pre ++ post) Registries.empty
  have hpre := runEvents_ok L cfg domain pre Registries.empty
  have hpost := runEvents_ok L cfg domain post (runEvents L cfg domain Registries.empty pre).reg
  refine ⟨?_, hall.nodup, fun t k h => (hall.fresh t k h).2, ?_,
    runEvents_output L cfg domain (pre ++ post) Registries.empty, ?_, ?_⟩
  · apply runEvents_firstClaims
    · intro t k
      rw [ofTag_empty]
      simp
    · intro u hu
      simp [Registries.empty] at hu
  · intro t k
    rw [hall.grows t k, ofTag_empty]
    simp
  · rw [runEvents_append]
  · intro t k h1 h2
    exact (hpost.fresh t k h2).1 ((hpre.grows t k).2 (Or.inr h1))

/-- C7 (amended): when an event hands a key to `printIfInScope` in one of the four
categories and the scope filter rejects it, the filter prints nothing and the event
prints no line with the tag of that category, but the key, which was not in the map of
the category before the event, is in it after the event: a key is recorded whether the
scope filter accepts it or not. -/
theorem rejected_key_is_recorded (L : UrlLib) (cfg : Config) (domain : GoString)
    (reg : Registries) (ev : Event) (t : Tag) (k : GoString)
    (hcall : (t, k) ∈ registryCalls (handleEvent L cfg domain reg ev).calls)
    (hrej : (printIfInScope L cfg.scope t cfg.schema domain k cfg.plain cfg.outdir).1 = false) :
    printIfInScope L cfg.scope t cfg.schema domain k cfg.plain cfg.outdir = (false, []) ∧
    (∀ text plain, Effect.print t text plain ∉ (handleEvent L cfg domain reg ev).effects) ∧
    k ∉ reg.ofTag t ∧ k ∈ (handleEvent L cfg domain reg ev).reg.ofTag t := by
  have hok := handleEvent_ok L cfg domain reg ev
  have hout := handleEvent_output L cfg domain reg ev
  have hfalse := printIfInScope_false L cfg.scope t cfg.schema domain k cfg.plain cfg.outdir hrej
  have htag := registryCalls_tag _ t k hcall
  refine ⟨hfalse, ?_, (hok.fresh t k hcall).1, (hok.grows t k).2 (Or.inr hcall)⟩
  intro text plain hmem
  have hf : Effect.print t text plain ∈
      (handleEvent L cfg domain reg ev).effects.filter isRegistryPrint :=
    List.mem_filter.2 ⟨hmem, by simpa [isRegistryPrint] using htag⟩
  unfold OutputOk at hout
  rw [hout, List.mem_flatMap] at hf
  obtain ⟨⟨t2, k2⟩, hc, hin⟩ := hf
  have hin2 := (List.mem_filter.1 hin).1
  rcases printIfInScope_snd L cfg.scope t2 cfg.schema domain k2 cfg.plain cfg.outdir with h | ⟨x, h⟩
  · rw [h] at hin2; simp at hin2
  · have ht : t2 = t := by
      rw [h] at hin2
      by_cases ho : cfg.outdir ≠ []
      · simp [ho] at hin2; exact hin2.1.symm
      · simp [ho] at hin2; exact hin2.1.symm
    subst ht
    have hk := handleEvent_one_call_per_tag L cfg domain reg ev t2 k k2 hcall hc
    subst hk
    rw [hfalse] at hin2
    simp at hin2

/-- The hyperlink `http://evil.com/`, out of scope for `example.com` under `subs`, is
recorded in the map `urls`. -/
theorem rejected_key_is_recorded_witness :
    "http://evil.com/".toList ∉ Registries.empty.urls ∧
    "http://evil.com/".toList ∈ (handleEvent goUrl Config.default "example.com".toList
      Registries.empty (.href "http://evil.com/".toList "http://evil.com/".toList)).reg.urls :=
  (rejected_key_is_recorded goUrl Config.default "example.com".toList Registries.empty
    (.href "http://evil.com/".toList "http://evil.com/".toList) Tag.url "http://evil.com/".toList
    (by decide) (by decide)).2.2

/-- The claim C7 as stated fails: with the default flags and the domain `example.com`,
the scope filter rejects the hyperlink `http://evil.com/`, and the event, which prints
nothing, changes the maps `urls` and `subdomains` and hands the link to the collector. -/
theorem rejected_url_changes_registry :
    (printIfInScope goUrl Config.default.scope Tag.url Config.default.schema "example.com".toList
      "http://evil.com/".toList Config.default.plain Config.default.outdir).1 = false ∧
    handleEvent goUrl Config.default "example.com".toList Registries.empty
        (.href "http://evil.com/".toList "http://evil.com/".toList) =
      { reg := { urls := ["http://evil.com/".toList], subdomains := ["evil.com".toList],
                 jsfiles := [], forms := [] },
        calls := [(Tag.url, "http://evil.com/".toList), (Tag.subdomain, "evil.com".toList)],
        effects := [Effect.visit "http://evil.com/".toList] } := by
  decide

/-! ## `crawl`: the category flags -/

/-- When one of the six flags that `crawl` tests is set, a category is printed only if
its own flag is set: `*includeAllPtr` is false, robots and sitemap entries follow their
flags, and every call of `printIfInScope` made for an event has a tag whose flag is set. -/
theorem six_flags_select (L : UrlLib) (cfg : Config) (domain : GoString) (reg : Registries)
    (ev : Event) (t : Tag) (k : GoString)
    (hflag : (cfg.includeJS || cfg.includeSubs || cfg.includeURLs || cfg.includeForms ||
      cfg.includeRobots || cfg.includeSitemap) = true)
    (hcall : (t, k) ∈ (handleEvent L cfg domain reg ev).calls) :
    cfg.all = false ∧ cfg.printRobots = cfg.includeRobots ∧
      cfg.printSitemap = cfg.includeSitemap ∧ cfg.includes t = true := by
  have hall : cfg.all = false := by
    unfold Config.all
    rw [if_pos hflag]
  refine ⟨hall, by simp [Config.printRobots, hall], by simp [Config.printSitemap, hall], ?_⟩
  cases ev with
  | href attr urlString =>
    simp only [handleEvent, onHref] at hcall
    by_cases c1 : urlString ∈ reg.urls
    · rw [if_pos c1] at hcall; simp at hcall
    rw [if_neg c1] at hcall
    by_cases c2 : urlString = []
    · rw [if_pos c2] at hcall; simp at hcall
    rw [if_neg c2] at hcall
    cases hp : L.parse urlString with
    | none => rw [hp] at hcall; simp at hcall
    | some urlObj =>
      rw [hp] at hcall
      dsimp only at hcall
      split_ifs at hcall <;> simp_all [Config.includes]
      all_goals aesop
  | script jsfile resp =>
    simp only [handleEvent, onScript] at hcall
    split_ifs at hcall <;> simp_all [Config.includes]
  | form action =>
    simp only [handleEvent, onForm] at hcall
    split_ifs at hcall <;> simp_all [Config.includes]
  | wayback waybackurl =>
    simp only [handleEvent, onWayback] at hcall
    by_cases c1 : (!cfg.usewayback) = true
    · rw [if_pos c1] at hcall; simp at hcall
    rw [if_neg c1] at hcall
    cases hp : L.parse waybackurl with
    | none =>
      rw [hp] at hcall
      split_ifs at hcall <;> simp_all [Config.includes]
    | some urlObj =>
      rw [hp] at hcall
      dsimp only at hcall
      split_ifs at hcall <;> simp_all [Config.includes]
      all_goals aesop

/-- C10, at the failing input: with the flag `-wayback` alone (all other flags at their
defaults) `*includeAllPtr` stays true, so `crawl` prints the robots entry, the sitemap
entry, the URL and subdomain of a hyperlink, the JavaScript file and the form action;
with `-js` added, `*includeAllPtr` becomes false. -/
theorem wayback_flag_alone_includes_all :
    Config.all { Config.default with includeWayback := true } = true ∧
    crawl goUrl "example.com".toList { Config.default with includeWayback := true }
        { robotsResp := some { status := 200, body := some "Disallow: /admin\n".toList },
          sitemapLocations := ["http://example.com/s".toList],
          events := [.href "/a".toList "http://example.com/a".toList,
                     .script "http://example.com/app.js".toList none,
                     .form "http://example.com/login".toList] } =
      some
        { robots := [Effect.print .robots "http://example.com/admin".toList false],
          sitemap := [Effect.print .sitemap "http://example.com/s".toList false],
          events :=
            { reg := { urls := ["http://example.com/a".toList],
                       subdomains := ["example.com".toList],
                       jsfiles := ["http://example.com/app.js".toList],
                       forms := ["http://example.com/login".toList] },
              calls := [(Tag.url, "http://example.com/a".toList),
                        (Tag.subdomain, "example.com".toList),
                        (Tag.javascript, "http://example.com/app.js".toList),
                        (Tag.form, "http://example.com/login".toList)],
              effects := [Effect.print .url "http://example.com/a".toList false,
                          Effect.print .subdomain "example.com".toList false,
                          Effect.visit "/a".toList,
                          Effect.print .javascript "http://example.com/app.js".toList false,
                          Effect.print .form "http://example.com/login".toList false] } } ∧
    Config.all { Config.default with includeWayback := true, includeJS := true } = false := by
  decide

end Hakrawler
